import Mathlib

/-
Verification of the NetVGE gate-level netlist analysis and Trojan-insertion
engine (netlist_parser.py, feature_extraction.py, trojan_inserter.py).

The Python code is shallowly embedded:
  * text is `List Char`;
  * Python floats carrying `float('inf')` sentinels are embedded as `SVal`,
    rationals extended with an infinity element (the SCOAP computations only
    ever add, take minima, sum, and divide by positive list lengths, so no
    indeterminate float forms such as `inf - inf` feed back into the state;
    the one place Python produces `nan` — the convergence test subtracting
    two equal infinities — is embedded explicitly in `changedBy`);
  * Python dicts are insertion-ordered association lists / key lists;
  * fallible operations (list indexing that can raise IndexError) return
    `Option`.
-/

namespace NetVGE

/-! ### Text -/

abbrev Text := List Char

/-- Shorthand turning a string literal into the `List Char` text type. -/
def lit (s : String) : Text := s.data

/-! ### Extended values: rationals with an infinity sentinel

`SVal` embeds the Python floats used by the SCOAP pass, which are either
ordinary (rational-valued) numbers or `float('inf')`. -/

inductive SVal where
  | inf : SVal
  | q (x : ℚ) : SVal
deriving DecidableEq

/-- Explicit minimum on rationals (kept kernel-reducible). -/
def qmin (a b : ℚ) : ℚ := if a ≤ b then a else b

/-- Explicit absolute value on rationals (kept kernel-reducible). -/
def qabs (x : ℚ) : ℚ := if x < 0 then -x else x

/-- `min` on extended values; `min(inf, x) = x`, as for Python floats. -/
def SVal.minv : SVal → SVal → SVal
  | .inf, b => b
  | .q a, .inf => .q a
  | .q a, .q b => .q (qmin a b)

/-- Addition on extended values; anything plus `inf` is `inf`, as for floats. -/
def SVal.add : SVal → SVal → SVal
  | .inf, _ => .inf
  | .q _, .inf => .inf
  | .q a, .q b => .q (a + b)

/-- Division of an extended value by a natural number (used by the
multiplexer/unknown averaging rules); `inf / n = inf`, as for floats. -/
def SVal.divNat : SVal → Nat → SVal
  | .inf, _ => .inf
  | .q a, n => .q (a / n)

/-- Order on extended values: `inf` is the top element. -/
def SVal.le : SVal → SVal → Prop
  | _, .inf => True
  | .inf, .q _ => False
  | .q a, .q b => a ≤ b

instance (a b : SVal) : Decidable (SVal.le a b) := by
  rcases a with _ | a <;> rcases b with _ | b <;> simp [SVal.le] <;> infer_instance

/-- Minimum of a list of extended values, as Python `min` on a nonempty list
(the `inf` base value is absorbed by any element). -/
def listMin (l : List SVal) : SVal := l.foldr SVal.minv .inf

/-- Sum of a list of extended values, as Python `sum`. -/
def listSum (l : List SVal) : SVal := l.foldr SVal.add (.q 0)

/-- Embeds the Python convergence test `abs(new - old) > 0.01` on floats.
When both values are `inf` Python computes `abs(inf - inf) = nan`, and
`nan > 0.01` is `False`; when exactly one is `inf` the difference is `±inf`
and the test is `True`. -/
def changedBy : SVal → SVal → Bool
  | .inf, .inf => false
  | .inf, .q _ => true
  | .q _, .inf => true
  | .q a, .q b => decide ((1 : ℚ)/100 < qabs (b - a))

/-! ### Gate taxonomy (netlist_parser.py, class GateType) -/

inductive GateType where
  | AND | OR | XOR | NAND | NOR | XNOR | NOT | BUF | DFF | MUX | UNKNOWN
deriving DecidableEq

/-- A gate instance (netlist_parser.py, class Gate): instance name,
classified kind, raw cell-type string, ordered input and output net names. -/
structure Gate where
  name : String
  gateType : GateType
  cellName : String
  inputs : List String
  outputs : List String
deriving DecidableEq

/-! ### SCOAP controllability rules
(feature_extraction.py, FeatureExtractor._gate_controllability) -/

/-- First element plus a constant, defaulting to the constant on an empty
list: embeds Python `input_c[0] + k if input_c else k`. -/
def headAdd (l : List SVal) (k : ℚ) : SVal :=
  match l with
  | [] => .q k
  | x :: _ => x.add (.q k)

/-- Arithmetic mean plus a constant, defaulting to the constant on an empty
list: embeds Python `sum(c) / len(c) + k if c else k`. -/
def meanAdd (l : List SVal) (k : ℚ) : SVal :=
  match l with
  | [] => .q k
  | _ :: _ => ((listSum l).divNat l.length).add (.q k)

/-- `FeatureExtractor._gate_controllability`: candidate output
(controllability-0, controllability-1) from the input controllability lists. -/
def gateControllability (t : GateType) (c0s c1s : List SVal) : SVal × SVal :=
  match t with
  | .AND => ((listMin c0s).add (.q 1), (listSum c1s).add (.q 1))
  | .NAND => ((listSum c1s).add (.q 1), (listMin c0s).add (.q 1))
  | .OR => ((listSum c0s).add (.q 1), (listMin c1s).add (.q 1))
  | .NOR => ((listMin c1s).add (.q 1), (listSum c0s).add (.q 1))
  | .XOR => ((SVal.minv (listSum c0s) (listSum c1s)).add (.q 1),
             (SVal.minv (listSum c0s) (listSum c1s)).add (.q 1))
  | .XNOR => ((SVal.minv (listSum c0s) (listSum c1s)).add (.q 1),
              (SVal.minv (listSum c0s) (listSum c1s)).add (.q 1))
  | .NOT => (headAdd c1s 1, headAdd c0s 1)
  | .BUF => (headAdd c0s 1, headAdd c1s 1)
  | .DFF => (headAdd c0s 5, headAdd c1s 5)
  | .MUX => (meanAdd c0s 2, meanAdd c1s 2)
  | .UNKNOWN => (meanAdd c0s 1, meanAdd c1s 1)

/-! ### Forward controllability pass
(feature_extraction.py, FeatureExtractor._compute_controllability)

The Python code first attempts a topological sort of a net-level graph, but
the resulting `topo_order` is never used afterwards, so it is not embedded.
The pass is the bounded fixed-point loop over the gate dictionary. -/

/-- Per-net controllability state: the `controllability_0` and
`controllability_1` fields of the `Net` records, keyed by net name. -/
structure CState where
  c0 : String → SVal
  c1 : String → SVal

/-- Update of a single output net of a gate: take the running minimum with the
candidate values and record whether the net moved by more than the 0.01
epsilon (the `for out in gate.outputs` loop body). -/
def updOutC (nets : List String) (cand0 cand1 : SVal) (acc : CState × Bool)
    (out : String) : CState × Bool :=
  if out ∈ nets then
    let old0 := acc.1.c0 out
    let old1 := acc.1.c1 out
    let new0 := SVal.minv old0 cand0
    let new1 := SVal.minv old1 cand1
    ({ c0 := fun n => if n = out then new0 else acc.1.c0 n,
       c1 := fun n => if n = out then new1 else acc.1.c1 n },
     acc.2 || (changedBy old0 new0 || changedBy old1 new1))
  else acc

/-- Processing of one gate inside an iteration of the controllability loop:
collect the controllabilities of the inputs present in the net table, skip
the gate if there are none, otherwise compute the candidate outputs and fold
the update over the gate's output list. -/
def updateGateC (nets : List String) (g : Gate) (s : CState) : CState × Bool :=
  let ins := g.inputs.filter (fun i => decide (i ∈ nets))
  match ins with
  | [] => (s, false)
  | _ :: _ =>
    let c0s := ins.map s.c0
    let c1s := ins.map s.c1
    let cand := gateControllability g.gateType c0s c1s
    g.outputs.foldl (updOutC nets cand.1 cand.2) (s, false)

/-- One full iteration of the controllability loop over every gate, threading
the per-iteration `changed` flag. -/
def passC (nets : List String) (gates : List Gate) (s : CState) : CState × Bool :=
  gates.foldl (fun acc g =>
    let r := updateGateC nets g acc.1
    (r.1, acc.2 || r.2)) (s, false)

/-- The capped fixed-point loop `for iteration in range(10): ... if not
changed: break`, returning the final state together with the number of full
iterations actually executed. -/
def runC (nets : List String) (gates : List Gate) : Nat → CState → CState × Nat
  | 0, s => (s, 0)
  | n + 1, s =>
    let p := passC nets gates s
    if p.2 then
      let r := runC nets gates n p.1
      (r.1, r.2 + 1)
    else (p.1, 1)

/-- Initial controllability state (`FeatureExtractor._compute_scoap`): every
net at the `inf` sentinel, then primary inputs present in the net table at
the baseline 1. -/
def initC (nets pis : List String) : CState :=
  { c0 := fun n => if n ∈ pis ∧ n ∈ nets then .q 1 else .inf,
    c1 := fun n => if n ∈ pis ∧ n ∈ nets then .q 1 else .inf }

/-- The full forward controllability pass with the fixed cap of 10
iterations; also returns the number of iterations executed. -/
def computeControllability (nets pis : List String) (gates : List Gate) :
    CState × Nat :=
  runC nets gates 10 (initC nets pis)

/-! ### Backward observability pass
(feature_extraction.py, FeatureExtractor._compute_observability) -/

/-- Per-net observability state, keyed by net name. -/
abbrev OState := String → SVal

/-- Update of a single input net during the backward pass: running minimum
with the propagated candidate, with the same 0.01 epsilon change test. -/
def updInO (nets : List String) (newObs : SVal) (acc : OState × Bool)
    (inp : String) : OState × Bool :=
  if inp ∈ nets then
    let old := acc.1 inp
    let new := SVal.minv old newObs
    ((fun n => if n = inp then new else acc.1 n),
     acc.2 || changedBy old new)
  else acc

/-- Processing of one gate in the observability loop: take the minimum
observability over the gate's in-table outputs, skip the gate if there are
none, add the gate's total fan-in count (`len(gate.inputs)`, the unfiltered
input list) and propagate to every input. -/
def updateGateO (nets : List String) (g : Gate) (s : OState) : OState × Bool :=
  let outs := g.outputs.filter (fun o => decide (o ∈ nets))
  match outs with
  | [] => (s, false)
  | _ :: _ =>
    let m := listMin (outs.map s)
    let newObs := m.add (.q g.inputs.length)
    g.inputs.foldl (updInO nets newObs) (s, false)

/-- One full iteration of the observability loop over every gate. -/
def passO (nets : List String) (gates : List Gate) (s : OState) : OState × Bool :=
  gates.foldl (fun acc g =>
    let r := updateGateO nets g acc.1
    (r.1, acc.2 || r.2)) (s, false)

/-- The capped backward fixed-point loop, mirroring `runC`. -/
def runO (nets : List String) (gates : List Gate) : Nat → OState → OState × Nat
  | 0, s => (s, 0)
  | n + 1, s =>
    let p := passO nets gates s
    if p.2 then
      let r := runO nets gates n p.1
      (r.1, r.2 + 1)
    else (p.1, 1)

/-- Initial observability state (`FeatureExtractor._compute_scoap` /
`_compute_observability`): every net at the `inf` sentinel, then primary
outputs present in the net table at 0. -/
def initO (nets pos : List String) : OState :=
  fun n => if n ∈ pos ∧ n ∈ nets then .q 0 else .inf

/-- The full backward observability pass with the fixed cap of 10
iterations. -/
def computeObservability (nets pos : List String) (gates : List Gate) :
    OState × Nat :=
  runO nets gates 10 (initO nets pos)

/-! ### Gate classification (netlist_parser.py, NetlistParser._classify_gate_type) -/

/-- Python's case-normalisation `gate_type_str.upper()`. -/
def upperText (t : Text) : Text := t.map Char.toUpper

/-- Python's substring test `pat in s` on strings. -/
def hasSub (pat t : Text) : Bool := decide (pat <:+: t)

/-- `NetlistParser._classify_gate_type`: substring-rule classification of a
raw cell-type string into the fixed gate-kind taxonomy. -/
def classifyGateType (s : Text) : GateType :=
  let g := upperText s
  if hasSub (lit "AND") g && !hasSub (lit "NAND") g then .AND
  else if hasSub (lit "NAND") g then .NAND
  else if hasSub (lit "OR") g && !hasSub (lit "NOR") g && !hasSub (lit "XOR") g then .OR
  else if hasSub (lit "NOR") g && !hasSub (lit "XNOR") g then .NOR
  else if hasSub (lit "XOR") g && !hasSub (lit "XNOR") g then .XOR
  else if hasSub (lit "XNOR") g then .XNOR
  else if hasSub (lit "NOT") g || hasSub (lit "INV") g then .NOT
  else if hasSub (lit "BUF") g then .BUF
  else if hasSub (lit "DFF") g || hasSub (lit "DFFR") g || hasSub (lit "DFFS") g then .DFF
  else if hasSub (lit "MUX") g then .MUX
  else .UNKNOWN

/-! ### The weaver (trojan_inserter.py, TrojanInserter._insert_into_netlist)

`re.search(r'(endmodule)', content)` finds the first occurrence of the
literal `endmodule` in the text (the adjacent comment in the source says
"last", but `re.search` returns the leftmost match); the Trojan fragment
plus a newline is spliced in immediately before it, and if there is no
occurrence the text gets `'\n' + fragment` appended. -/

/-- Index of the first occurrence of `pat` as a contiguous substring
(leftmost match of `re.search` on a literal pattern). -/
def findIdx (pat : Text) : Text → Option Nat
  | [] => if pat = [] then some 0 else none
  | c :: rest =>
    if pat <+: (c :: rest) then some 0
    else (findIdx pat rest).map (· + 1)

/-- `TrojanInserter._insert_into_netlist`. -/
def insertIntoNetlist (content frag : Text) : Text :=
  match findIdx (lit "endmodule") content with
  | some pos => content.take pos ++ frag ++ lit "\n" ++ content.drop pos
  | none => content ++ lit "\n" ++ frag

/-! ### Trojan logic synthesis (trojan_inserter.py, TrojanInserter)

`datetime.now().isoformat()` is an effect of the environment and is passed
in as the `ts` argument.  List indexing that can raise `IndexError`
(`trigger_nets[0]` in the sequential and counter branches) is embedded via
`Option`; the `trigger_nets[1]` / `trigger_nets[2]` accesses are guarded by
explicit length tests in the source and are embedded with `getD` under the
same guards. -/

/-- The `trojan_trigger_{counter}` signal name. -/
def trigSig (c : Nat) : String := "trojan_trigger_" ++ toString c

/-- The `trojan_payload_{counter}` signal name. -/
def paySig (c : Nat) : String := "trojan_payload_" ++ toString c

/-- The `trojan_state_{counter}` register name. -/
def stateSig (c : Nat) : String := "trojan_state_" ++ toString c

/-- The `trojan_counter_{counter}` register name. -/
def cntSig (c : Nat) : String := "trojan_counter_" ++ toString c

/-- `TrojanInserter._generate_trojan_logic`: builds the Trojan Verilog
fragment as a list of lines joined by newlines.  Returns `none` exactly when
Python would raise `IndexError` (sequential/counter trigger with an empty
trigger-net list). -/
def generateTrojanLogic (counter : Nat) (trigNets : List (String × ℚ))
    (payloadNet : Option (String × ℚ)) (ttype ptype ts : String) :
    Option String := do
  let tsig := trigSig counter
  let psig := paySig counter
  let hdr := ["\n  // === INSERTED TROJAN START ===",
              "  // Trigger: " ++ ttype ++ ", Payload: " ++ ptype,
              "  // Inserted: " ++ ts]
  let trigLines ←
    if ttype = "combinational" then
      let expr := String.intercalate " & " (trigNets.map (fun n => "(" ++ n.1 ++ ")"))
      some ["\n  // Combinational trigger: rare combination",
            "  wire " ++ tsig ++ ";",
            "  assign " ++ tsig ++ " = " ++ expr ++ ";"]
    else if ttype = "sequential" then do
      let n0 ← trigNets[0]?
      let ss := stateSig counter
      some (["\n  // Sequential trigger: FSM",
             "  reg [1:0] " ++ ss ++ ";",
             "  wire " ++ tsig ++ ";",
             "\n  always @(posedge clk or posedge rst) begin",
             "    if (rst)",
             "      " ++ ss ++ " <= 2'b00;",
             "    else begin",
             "      case (" ++ ss ++ ")",
             "        2'b00: if (" ++ n0.1 ++ ") " ++ ss ++ " <= 2'b01;"]
        ++ (if trigNets.length > 1 then
              ["        2'b01: if (" ++ (trigNets.getD 1 ("", 0)).1 ++ ") " ++ ss ++ " <= 2'b10;"]
            else [])
        ++ (if trigNets.length > 2 then
              ["        2'b10: if (" ++ (trigNets.getD 2 ("", 0)).1 ++ ") " ++ ss ++ " <= 2'b11;"]
            else [])
        ++ ["        default: " ++ ss ++ " <= 2'b00;",
            "      endcase",
            "    end",
            "  end",
            "  assign " ++ tsig ++ " = (" ++ ss ++ " == 2'b11);"])
    else if ttype = "counter" then do
      let n0 ← trigNets[0]?
      let cs := cntSig counter
      some ["\n  // Counter-based trigger: rare event",
            "  reg [15:0] " ++ cs ++ ";",
            "  wire " ++ tsig ++ ";",
            "\n  always @(posedge clk or posedge rst) begin",
            "    if (rst)",
            "      " ++ cs ++ " <= 16'h0000;",
            "    else if (" ++ n0.1 ++ ")",
            "      " ++ cs ++ " <= " ++ cs ++ " + 1;",
            "  end",
            "  assign " ++ tsig ++ " = (" ++ cs ++ " == 16'hFFFF);"]
    else some []
  let payLines :=
    match payloadNet with
    | none => []
    | some pn =>
      ("\n  // Payload: " ++ ptype) ::
      (if ptype = "leakage" then
        ["  wire " ++ psig ++ ";",
         "  assign " ++ psig ++ " = " ++ tsig ++ " ? " ++ pn.1 ++ " : 1'b0;",
         "  // Note: Connect " ++ psig ++ " to an output for leakage"]
      else if ptype = "dos" then
        ["  wire " ++ psig ++ ";",
         "  assign " ++ psig ++ " = " ++ tsig ++ " ? 1'b0 : " ++ pn.1 ++ ";",
         "  // Note: Replace " ++ pn.1 ++ " with " ++ psig ++ " in the design"]
      else if ptype = "corruption" then
        ["  wire " ++ psig ++ ";",
         "  assign " ++ psig ++ " = " ++ tsig ++ " ? ~" ++ pn.1 ++ " : " ++ pn.1 ++ ";",
         "  // Note: Replace " ++ pn.1 ++ " with " ++ psig ++ " in the design"]
      else [])
  return String.intercalate "\n"
    (hdr ++ trigLines ++ payLines ++ ["  // === INSERTED TROJAN END ===\n"])

/-- The mutable state of a `TrojanInserter`: the netlist text read once in
`__init__` and the sequential Trojan counter.  (The module name extracted in
`__init__` only feeds the output file name and is not modelled.) -/
structure IState where
  content : Text
  counter : Nat
deriving DecidableEq

/-- The arguments of one `insert_trojan` call. -/
structure TrojanCall where
  targetNets : List (String × ℚ)
  triggerType : String
  payloadType : String
  timestamp : String

/-- `TrojanInserter.insert_trojan`: bump the counter, pick the top
`min(3, len)` target nets as trigger nets and the top net as payload net,
generate the fragment and weave it into the stored netlist text.  The second
component is the woven netlist content written to the output file, `none`
when `_generate_trojan_logic` raises (after the counter was already
bumped). -/
def insertTrojanStep (s : IState) (call : TrojanCall) : IState × Option Text :=
  let c' := s.counter + 1
  let trig := call.targetNets.take 3
  let pay := call.targetNets.head?
  match generateTrojanLogic c' trig pay call.triggerType call.payloadType
      call.timestamp with
  | none => ({ s with counter := c' }, none)
  | some frag => ({ s with counter := c' }, some (insertIntoNetlist s.content frag.data))

/-- A sequence of `insert_trojan` calls on one inserter, returning the final
inserter state and the per-call outputs. -/
def runCalls (s : IState) : List TrojanCall → IState × List (Option Text)
  | [] => (s, [])
  | c :: rest =>
    let st := insertTrojanStep s c
    let r := runCalls st.1 rest
    (r.1, st.2 :: r.2)

/-- Specification of the outputs of a call sequence: the k-th call weaves the
fragment for identifier `k+1` (counting from the inserter's creation) into
the pristine original text, independently of every other call. -/
def expectedOutputs (orig : Text) (k : Nat) : List TrojanCall → List (Option Text)
  | [] => []
  | c :: rest =>
    (generateTrojanLogic (k + 1) (c.targetNets.take 3) c.targetNets.head?
        c.triggerType c.payloadType c.timestamp).map
      (fun f => insertIntoNetlist orig f.data)
    :: expectedOutputs orig (k + 1) rest

/-- The trigger-net slice the driver hands to Trojan number `i`
(`insert_multiple_trojans`): `start_idx = (i*10) % max(1, len(target_nets)-10)`
then ten nets from there. -/
def trojanNetsFor (target : List (String × ℚ)) (i : Nat) : List (String × ℚ) :=
  let m : Nat := if target.length ≥ 11 then target.length - 10 else 1
  let start := (i * 10) % m
  (target.drop start).take 10

/-- The loop body of `insert_multiple_trojans`: each requested Trojan gets a
(random, here externally supplied) trigger/payload kind and a timestamp; an
empty net slice is skipped with a warning, and an exception from
`insert_trojan` is caught and the Trojan skipped. -/
def multiLoop (s : IState) (target : List (String × ℚ)) (i : Nat) :
    List (String × String × String) → IState × List Text
  | [] => (s, [])
  | (tt, pt, ts) :: rest =>
    match trojanNetsFor target i with
    | [] => multiLoop s target (i + 1) rest
    | tn0 :: tn' =>
      let st := insertTrojanStep s ⟨tn0 :: tn', tt, pt, ts⟩
      match st.2 with
      | none => multiLoop st.1 target (i + 1) rest
      | some out =>
        let r := multiLoop st.1 target (i + 1) rest
        (r.1, out :: r.2)

/-- `insert_multiple_trojans`, with the random trigger/payload choices and
timestamps supplied as an explicit list (one triple per requested Trojan). -/
def insertMultipleTrojans (orig : Text) (target : List (String × ℚ))
    (choices : List (String × String × String)) : IState × List Text :=
  multiLoop ⟨orig, 0⟩ target 0 choices

/-! ### The netlist graph (netlist_parser.py, NetlistParser._build_graph)

`networkx.DiGraph` node and edge insertion is idempotent, so nodes and edges
are kept as first-insertion-ordered duplicate-free lists.  Nodes are the net
names followed by the gate instance names; edges run net → gate for gate
inputs and gate → net for gate outputs. -/

/-- Idempotent ordered insertion (DiGraph `add_node` / `add_edge`). -/
def addOnce {α : Type} [DecidableEq α] (l : List α) (x : α) : List α :=
  if x ∈ l then l else l ++ [x]

/-- The edges contributed by one gate, in source order. -/
def addGateEdges (nets : List String) (acc : List (String × String)) (g : Gate) :
    List (String × String) :=
  let acc1 := g.inputs.foldl
    (fun a i => if i ∈ nets then addOnce a (i, g.name) else a) acc
  g.outputs.foldl
    (fun a o => if o ∈ nets then addOnce a (g.name, o) else a) acc1

/-- The edge list of the netlist graph. -/
def buildEdges (nets : List String) (gates : List Gate) : List (String × String) :=
  gates.foldl (addGateEdges nets) []

/-- The node list of the netlist graph: nets in table order, then gate
instance names. -/
def graphNodes (nets : List String) (gates : List Gate) : List String :=
  gates.foldl (fun acc g => addOnce acc g.name) nets

/-- Walks in the directed graph, counted in edges. -/
inductive EWalk (edges : List (String × String)) : Nat → String → String → Prop
  | refl (x : String) : EWalk edges 0 x x
  | step {x y z : String} {n : Nat} (h : (x, y) ∈ edges)
      (hw : EWalk edges n y z) : EWalk edges (n + 1) x z

/-- Net-level walks counted in gate hops: one hop walks through one gate of
the netlist, from one of its in-table input nets to one of its in-table
output nets. -/
inductive NetWalk (nets : List String) (gates : List Gate) :
    Nat → String → String → Prop
  | refl (x : String) : NetWalk nets gates 0 x x
  | step {x y z : String} {n : Nat} (g : Gate) (hg : g ∈ gates)
      (hx : x ∈ g.inputs) (hxn : x ∈ nets) (hy : y ∈ g.outputs)
      (hyn : y ∈ nets) (hw : NetWalk nets gates n y z) :
      NetWalk nets gates (n + 1) x z

/-- Successors of a node in the edge list. -/
def succsOf (edges : List (String × String)) (x : String) : List String :=
  (edges.filter (fun e => e.1 = x)).map (·.2)

/-- One step of breadth-first frontier growth: the set of nodes reachable in
at most one more edge from the current set. -/
def expandF (edges : List (String × String)) (s : List String) : List String :=
  s ++ s.flatMap (succsOf edges)

/-- Nodes reachable from `src` in at most `k` edges. -/
def frontier (edges : List (String × String)) (src : String) : Nat → List String
  | 0 => [src]
  | k + 1 => expandF edges (frontier edges src k)

/-- Breadth-first search for the smallest number of edges from the current
frontier to `dst`, with fuel. -/
def splGo (edges : List (String × String)) (dst : String) :
    Nat → List String → Nat → Option Nat
  | 0, cur, k => if dst ∈ cur then some k else none
  | f + 1, cur, k =>
    if dst ∈ cur then some k else splGo edges dst f (expandF edges cur) (k + 1)

/-- Shallow embedding of `networkx.shortest_path_length(graph, src, dst)`:
the number of edges on a shortest path, `none` when no path exists
(`NetworkXNoPath`).  The fuel only needs to dominate the length of a
shortest path, which is simple and therefore shorter than the node count;
callers pass the node count. -/
def spl (edges : List (String × String)) (fuel : Nat) (src dst : String) :
    Option Nat :=
  splGo edges dst fuel [src] 0

/-- Minimum of an optional accumulator and a value (the running
`min_depth = min(min_depth, path_len)` where `none` plays `float('inf')`). -/
def minO (acc : Option Nat) (d : Nat) : Option Nat :=
  match acc with
  | none => some d
  | some a => some (min a d)

/-- One step of the `for pi in self.parser.primary_inputs` minimisation in
`_compute_graph_features`: skip primary inputs absent from the graph
(`if pi in self.graph and net_name in self.graph`), treat `NetworkXNoPath`
as a pass, and take the running minimum otherwise. -/
def depthStep (edges : List (String × String)) (nodes : List String)
    (n : String) (acc : Option Nat) (p : String) : Option Nat :=
  if p ∈ nodes ∧ n ∈ nodes then
    match spl edges nodes.length p n with
    | some d => minO acc d
    | none => acc
  else acc

/-- `FeatureExtractor._compute_graph_features` for one net: primary inputs
get depth 0; otherwise the minimum over all primary inputs of the
shortest-path length in the netlist graph, defaulting to 0 when no primary
input reaches the net. -/
def logicDepth (nets pis : List String) (gates : List Gate) (n : String)
    (isInput : Bool) : Nat :=
  if isInput then 0
  else
    let edges := buildEdges nets gates
    let nodes := graphNodes nets gates
    (pis.foldl (depthStep edges nodes n) none).getD 0

/-! ### The netlist parser (netlist_parser.py, NetlistParser)

The parser is driven by `re` patterns over the comment-stripped text.  Each
pattern is embedded as a hand-rolled leftmost scanner with the same
semantics: `re.finditer` yields non-overlapping matches scanning left to
right and resumes after the end of each match; `\w` is `[A-Za-z0-9_]` and
`\s` is `[ \t\n\r\f\v]` (the inputs are ASCII netlists). -/

/-- `\w` word characters. -/
def isWordChar (c : Char) : Bool := c.isAlphanum || c = '_'

/-- `\s` whitespace characters. -/
def isSpaceChar (c : Char) : Bool :=
  c = ' ' || c = '\t' || c = '\n' || c = '\r' || c = '\x0b' || c = '\x0c'

/-- Removal of `//...` line comments (`re.sub(r'//.*?$', '', flags=MULTILINE)`):
drop from each `//` to the end of its line, keeping the newline.  The flag
records whether the scanner is inside a comment. -/
def rlcGo : Bool → Text → Text
  | _, [] => []
  | false, '/' :: '/' :: rest => rlcGo true rest
  | false, c :: rest => c :: rlcGo false rest
  | true, '\n' :: rest => '\n' :: rlcGo false rest
  | true, _ :: rest => rlcGo true rest

/-- Removal of `/* ... */` block comments
(`re.sub(r'/\*.*?\*/', '', flags=DOTALL)`): each `/*` is dropped together
with everything up to the nearest following `*/`; an unterminated `/*` is
not a match and is kept.  Fuel dominates the text length. -/
def rbcF : Nat → Text → Text
  | 0, t => t
  | fuel + 1, t =>
    match findIdx (lit "/*") t with
    | none => t
    | some i =>
      match findIdx (lit "*/") (t.drop (i + 2)) with
      | none => t
      | some j => t.take i ++ rbcF fuel (t.drop (i + 2 + j + 2))

/-- Literal-keyword match: `some` of the rest of the text after the keyword. -/
def dropLit (kw t : Text) : Option Text :=
  if kw <+: t then some (t.drop kw.length) else none

/-- A match of `module\s+(\w+)\s*\(` anchored at the start of `t`
(`NetlistParser._parse_module_header`), returning the captured name. -/
def matchModuleAt (t : Text) : Option Text :=
  match dropLit (lit "module") t with
  | none => none
  | some r1 =>
    match r1 with
    | [] => none
    | c :: _ =>
      if isSpaceChar c then
        let r2 := r1.dropWhile isSpaceChar
        let nm := r2.takeWhile isWordChar
        if nm = [] then none
        else
          match (r2.drop nm.length).dropWhile isSpaceChar with
          | '(' :: _ => some nm
          | _ => none
      else none

/-- `re.search` for the module-header pattern: leftmost match wins. -/
def searchModuleF : Nat → Text → Option Text
  | 0, _ => none
  | _ + 1, [] => none
  | f + 1, t@(_ :: rest) =>
    match matchModuleAt t with
    | some nm => some nm
    | none => searchModuleF f rest

/-- The lazy `\[.*?\]` bracket part of a port/wire declaration: everything up
to the nearest `]`, failing if a newline (which `.` does not cross) or the
end of text comes first.  Returns the text after the `]`. -/
def bracketSplit : Text → Option Text
  | [] => none
  | c :: rest =>
    if c = ']' then some rest
    else if c = '\n' then none
    else bracketSplit rest

/-- A match of `KEYWORD\s+(?:\[.*?\]\s+)?(\w+)` anchored at the start of `t`
(`NetlistParser._parse_ports` / `_parse_wires`), returning the captured net
name and the rest of the text after the match.  When the optional bracket
group cannot complete, the regex backtracks to matching `\w+` directly at
the `[`, which is not a word character, so the whole match fails. -/
def matchDeclAt (kw : Text) (t : Text) : Option (Text × Text) :=
  match dropLit kw t with
  | none => none
  | some r1 =>
    match r1 with
    | [] => none
    | c :: _ =>
      if isSpaceChar c then
        let r2 := r1.dropWhile isSpaceChar
        match r2 with
        | '[' :: rb =>
          match bracketSplit rb with
          | none => none
          | some after =>
            match after with
            | [] => none
            | c2 :: _ =>
              if isSpaceChar c2 then
                let r3 := after.dropWhile isSpaceChar
                let nm := r3.takeWhile isWordChar
                if nm = [] then none else some (nm, r3.drop nm.length)
              else none
        | _ =>
          let nm := r2.takeWhile isWordChar
          if nm = [] then none else some (nm, r2.drop nm.length)
      else none

/-- `re.finditer` for the declaration pattern: collect the captured names of
all non-overlapping matches, left to right. -/
def scanDeclsF (kw : Text) : Nat → Text → List Text
  | 0, _ => []
  | _ + 1, [] => []
  | f + 1, t@(_ :: rest) =>
    match matchDeclAt kw t with
    | some (nm, after) => nm :: scanDeclsF kw f after
    | none => scanDeclsF kw f rest

/-- A match of the instantiation pattern `(\w+)\s+(\w+)\s*\((.*?)\);`
(DOTALL) anchored at the start of `t`: cell-type word, instance word,
connection text up to the nearest `);`, and the rest after the match. -/
def matchGateAt (t : Text) : Option (Text × Text × Text × Text) :=
  let w1 := t.takeWhile isWordChar
  if w1 = [] then none
  else
    let r1 := t.drop w1.length
    match r1 with
    | [] => none
    | c :: _ =>
      if isSpaceChar c then
        let r2 := r1.dropWhile isSpaceChar
        let w2 := r2.takeWhile isWordChar
        if w2 = [] then none
        else
          let r3 := (r2.drop w2.length).dropWhile isSpaceChar
          match r3 with
          | '(' :: r4 =>
            match findIdx (lit ");") r4 with
            | none => none
            | some j => some (w1, w2, r4.take j, r4.drop (j + 2))
          | _ => none
      else none

/-- `re.finditer` for the instantiation pattern. -/
def scanGatesF : Nat → Text → List (Text × Text × Text)
  | 0, _ => []
  | _ + 1, [] => []
  | f + 1, t@(_ :: rest) =>
    match matchGateAt t with
    | some (w1, w2, conns, after) => (w1, w2, conns) :: scanGatesF f after
    | none => scanGatesF f rest

/-- A match of the connection pattern `\.(\w+)\s*\((\w+)\)` anchored at the
start of `t`: port word, net word, rest after the match. -/
def matchConnAt (t : Text) : Option ((Text × Text) × Text) :=
  match t with
  | '.' :: r1 =>
    let w1 := r1.takeWhile isWordChar
    if w1 = [] then none
    else
      let r2 := (r1.drop w1.length).dropWhile isSpaceChar
      match r2 with
      | '(' :: r3 =>
        let w2 := r3.takeWhile isWordChar
        if w2 = [] then none
        else
          match r3.drop w2.length with
          | ')' :: after => some ((w1, w2), after)
          | _ => none
      | _ => none
  | _ => none

/-- `re.finditer` for the connection pattern. -/
def scanConnsF : Nat → Text → List (Text × Text)
  | 0, _ => []
  | _ + 1, [] => []
  | f + 1, t@(_ :: rest) =>
    match matchConnAt t with
    | some (pc, after) => pc :: scanConnsF f after
    | none => scanConnsF f rest

/-- A row of the net table (`Net` objects in `self.nets`, an
insertion-ordered dict). -/
structure NetInfo where
  name : String
  isInput : Bool
  isOutput : Bool
deriving DecidableEq

/-- `self.nets[name] = Net(name)` only when absent (auto-declaration). -/
def ensureNet (t : List NetInfo) (nm : String) : List NetInfo :=
  if t.any (fun x => x.name = nm) then t else t ++ [⟨nm, false, false⟩]

/-- `self.nets[port_name] = Net(port_name, is_input=True)`: unconditional
dict assignment — an existing entry is replaced (keeping its position). -/
def setNetInput (t : List NetInfo) (nm : String) : List NetInfo :=
  if t.any (fun x => x.name = nm) then
    t.map (fun x => if x.name = nm then ⟨nm, true, false⟩ else x)
  else t ++ [⟨nm, true, false⟩]

/-- Output-port processing: mark an existing entry `is_output`, otherwise
insert a fresh output net. -/
def setNetOutput (t : List NetInfo) (nm : String) : List NetInfo :=
  if t.any (fun x => x.name = nm) then
    t.map (fun x => if x.name = nm then ⟨nm, x.isInput, true⟩ else x)
  else t ++ [⟨nm, false, true⟩]

/-- The fixed output-port naming convention of `_parse_gates`. -/
def isOutPort (p : String) : Bool :=
  decide (p ∈ (["Y", "Q", "QN", "Z", "ZN", "OUT"] : List String))

/-- Dict insertion of a gate keyed by instance name: a duplicate instance
name replaces the stored gate but keeps its dict position. -/
def upsertGate (l : List Gate) (g : Gate) : List Gate :=
  if l.any (fun x => x.name = g.name) then
    l.map (fun x => if x.name = g.name then g else x)
  else l ++ [g]

/-- Accumulated parser state while processing instantiation matches. -/
structure ParseAcc where
  netTable : List NetInfo
  gates : List Gate

/-- Classification of one instantiation's connections into input and output
net lists, auto-declaring every referenced net. -/
def connFold (cl : List (Text × Text)) (t0 : List NetInfo) :
    List String × List String × List NetInfo :=
  cl.foldl
    (fun acc pc =>
      let port := String.mk pc.1
      let nm := String.mk pc.2
      if isOutPort port then (acc.1, acc.2.1 ++ [nm], ensureNet acc.2.2 nm)
      else (acc.1 ++ [nm], acc.2.1, ensureNet acc.2.2 nm))
    ([], [], t0)

/-- Processing of one raw instantiation match (`_parse_gates` loop body):
skip the structural keywords, otherwise parse the connections, auto-declare
their nets, classify the cell type and store the gate. -/
def processGateMatch (acc : ParseAcc) (m : Text × Text × Text) : ParseAcc :=
  let w1 := m.1
  let w2 := m.2.1
  let conns := m.2.2
  if String.mk w1 ∈ (["module", "endmodule", "input", "output", "wire"] : List String)
  then acc
  else
    let cl := scanConnsF (conns.length + 1) conns
    let r := connFold cl acc.netTable
    let g : Gate := ⟨String.mk w2, classifyGateType w1, String.mk w1, r.1, r.2.1⟩
    ⟨r.2.2, upsertGate acc.gates g⟩

/-- The result of `NetlistParser.parse`. -/
structure ParsedNetlist where
  moduleName : Option String
  netTable : List NetInfo
  gates : List Gate
  primaryInputs : List String
  primaryOutputs : List String

/-- `NetlistParser.parse`: strip comments, read the module header, the
ports, the wires and the gate instantiations, in that order.  The
`primary_inputs`/`primary_outputs` Python sets are embedded as deduplicated
lists; every later use of them (initialising SCOAP baselines, minimising
over primary inputs) is insensitive to their iteration order. -/
def parseNetlist (t : Text) : ParsedNetlist :=
  let content := rbcF (t.length + 1) (rlcGo false t)
  let mname := searchModuleF (content.length + 1) content
  let inputNames := (scanDeclsF (lit "input") (content.length + 1) content).map String.mk
  let outputNames := (scanDeclsF (lit "output") (content.length + 1) content).map String.mk
  let wireNames := (scanDeclsF (lit "wire") (content.length + 1) content).map String.mk
  let t1 := inputNames.foldl setNetInput []
  let t2 := outputNames.foldl setNetOutput t1
  let t3 := wireNames.foldl ensureNet t2
  let raw := scanGatesF (content.length + 1) content
  let acc := raw.foldl processGateMatch ⟨t3, []⟩
  { moduleName := mname.map String.mk,
    netTable := acc.netTable,
    gates := acc.gates,
    primaryInputs := inputNames.dedup,
    primaryOutputs := outputNames.dedup }

/-! ### Feature compilation (feature_extraction.py, FeatureExtractor) -/

/-- One per-net feature record (`FeatureExtractor._compile_features`). -/
structure FeatureRec where
  netName : String
  fanin : Nat
  fanout : Nat
  logicDepth : Nat
  c0n : ℚ
  c1n : ℚ
  obsn : ℚ
  isInput : Bool
  isOutput : Bool
  avgC : ℚ
  testability : ℚ
  stealth : ℚ
deriving DecidableEq

/-- Clamp-to-100-and-normalise (`min(v, 100) / 100.0`); the `inf` sentinel
clamps to 100 and normalises to 1. -/
def normVal : SVal → ℚ
  | .inf => 1
  | .q x => qmin x 100 / 100

/-- The full analysis pipeline on one source text: parse, build the graph,
run both SCOAP passes, compute graph features and compile the per-internal-
net feature records (`parse_netlist` + `FeatureExtractor.extract_all_features`). -/
def runPipeline (t : Text) : ParsedNetlist × List String × List (String × String) × List FeatureRec :=
  let p := parseNetlist t
  let netNames := p.netTable.map (fun ni => ni.name)
  let edges := buildEdges netNames p.gates
  let nodes := graphNodes netNames p.gates
  let cs := (computeControllability netNames p.primaryInputs p.gates).1
  let os := (computeObservability netNames p.primaryOutputs p.gates).1
  let feats := p.netTable.filterMap (fun ni =>
    if ni.isInput || ni.isOutput then none
    else
      let c0n := normVal (cs.c0 ni.name)
      let c1n := normVal (cs.c1 ni.name)
      let obsn := normVal (os ni.name)
      some { netName := ni.name,
             fanin := (edges.filter (fun e => e.2 = ni.name)).length,
             fanout := (edges.filter (fun e => e.1 = ni.name)).length,
             logicDepth := logicDepth netNames p.primaryInputs p.gates ni.name ni.isInput,
             c0n := c0n, c1n := c1n, obsn := obsn,
             isInput := ni.isInput, isOutput := ni.isOutput,
             avgC := (c0n + c1n) / 2,
             testability := (c0n + c1n) / 2 + obsn,
             stealth := 0 })
  (p, nodes, edges, feats)

/-! ### Predicates used by the theorems -/

/-- Every net's controllability values are at or above the primary-input
baseline of 1. -/
def CInv (s : CState) : Prop :=
  ∀ n, SVal.le (.q 1) (s.c0 n) ∧ SVal.le (.q 1) (s.c1 n)

/-- Every net's observability value is nonnegative. -/
def ONonneg (s : OState) : Prop :=
  ∀ n, SVal.le (.q 0) (s n)

/-! ### Helper lemmas -/

theorem qmin_eq_min (a b : ℚ) : qmin a b = min a b := by
  simp [qmin, min_def]

theorem hasSub_iff (p t : Text) : hasSub p t = true ↔ p <:+: t := by
  simp [hasSub]

theorem hasSub_mono {p q t : Text} (hpq : p <:+: q) (h : hasSub q t = true) :
    hasSub p t = true := by
  rw [hasSub_iff] at h ⊢
  exact hpq.trans h

theorem findIdx_some_spec (pat : Text) :
    ∀ (t : Text) (i : Nat), findIdx pat t = some i →
      i ≤ t.length ∧ pat <+: t.drop i ∧ ∀ j < i, ¬ pat <+: t.drop j := by
  intro t
  induction t with
  | nil =>
    intro i h
    simp only [findIdx] at h
    split at h
    · rename_i hp
      cases h
      exact ⟨Nat.le_refl 0, by simp [hp], by omega⟩
    · cases h
  | cons c rest ih =>
    intro i h
    simp only [findIdx] at h
    split at h
    · cases h
      exact ⟨Nat.zero_le _, by simpa using ‹pat <+: c :: rest›, by omega⟩
    · rename_i hnot
      cases hr : findIdx pat rest with
      | none => rw [hr] at h; cases h
      | some i' =>
        rw [hr] at h
        have h' : i' + 1 = i := by
          have : some (i' + 1) = some i := h
          injection this
        obtain ⟨h1, h2, h3⟩ := ih i' hr
        subst h'
        refine ⟨by simpa using Nat.succ_le_succ h1, by simpa using h2, ?_⟩
        intro j hj
        match j with
        | 0 => simpa using hnot
        | j' + 1 =>
          simpa using h3 j' (by omega)

theorem findIdx_none_spec (pat : Text) :
    ∀ (t : Text), findIdx pat t = none → ∀ j, ¬ pat <+: t.drop j := by
  intro t
  induction t with
  | nil =>
    intro h j
    simp only [findIdx] at h
    split at h
    · cases h
    · rename_i hne
      simpa [List.prefix_nil] using hne
  | cons c rest ih =>
    intro h j
    simp only [findIdx] at h
    split at h
    · cases h
    · rename_i hnot
      cases hr : findIdx pat rest with
      | some i' => rw [hr] at h; cases h
      | none =>
        match j with
        | 0 => simpa using hnot
        | j' + 1 => simpa using ih hr j'

/-! ### Order lemmas for the extended value domain -/

theorem sle_rfl (a : SVal) : SVal.le a a := by
  cases a <;> simp [SVal.le]

theorem sle_trans {a b c : SVal} (h1 : SVal.le a b) (h2 : SVal.le b c) :
    SVal.le a c := by
  rcases a with _ | a <;> rcases b with _ | b <;> rcases c with _ | c <;>
    simp_all [SVal.le]
  exact h1.trans h2

theorem sle_antisymm {a b : SVal} (h1 : SVal.le a b) (h2 : SVal.le b a) :
    a = b := by
  rcases a with _ | a <;> rcases b with _ | b <;> simp_all [SVal.le]
  exact le_antisymm h1 h2

theorem sle_top (a : SVal) : SVal.le a .inf := by
  cases a <;> simp [SVal.le]

theorem sle_q_iff {a b : ℚ} : SVal.le (.q a) (.q b) ↔ a ≤ b := by
  simp [SVal.le]

theorem sle_weaken {a b : ℚ} {v : SVal} (hba : b ≤ a) (h : SVal.le (.q a) v) :
    SVal.le (.q b) v := by
  rcases v with _ | v <;> simp_all [SVal.le]
  exact hba.trans h

theorem sle_not_inf {v : SVal} {c : ℚ} (h : SVal.le v (.q c)) : v ≠ .inf := by
  rcases v with _ | v <;> simp_all [SVal.le]

theorem minv_le_left (a b : SVal) : SVal.le (SVal.minv a b) a := by
  rcases a with _ | a <;> rcases b with _ | b <;>
    simp [SVal.minv, SVal.le, qmin] <;> split <;> simp_all <;> linarith

theorem sle_minv {a b c : SVal} (h1 : SVal.le c a) (h2 : SVal.le c b) :
    SVal.le c (SVal.minv a b) := by
  rcases a with _ | a <;> rcases b with _ | b <;> rcases c with _ | c <;>
    simp_all [SVal.minv, SVal.le, qmin]
  split <;> assumption

theorem sval_add_nonneg {a b : SVal} (ha : SVal.le (.q 0) a)
    (hb : SVal.le (.q 0) b) : SVal.le (.q 0) (a.add b) := by
  rcases a with _ | a <;> rcases b with _ | b <;> simp_all [SVal.add, SVal.le]
  positivity

theorem ge1_add {v : SVal} {c : ℚ} (hv : SVal.le (.q 0) v) (hc : (1 : ℚ) ≤ c) :
    SVal.le (.q 1) (v.add (.q c)) := by
  rcases v with _ | v <;> simp_all [SVal.add, SVal.le]
  linarith

theorem listMin_ge {c : ℚ} {l : List SVal} (h : ∀ v ∈ l, SVal.le (.q c) v) :
    SVal.le (.q c) (listMin l) := by
  induction l with
  | nil => simp [listMin, SVal.le]
  | cons x xs ih =>
    refine sle_minv (h x (by simp)) (ih fun v hv => h v (by simp [hv]))

theorem listSum_nonneg {l : List SVal} (h : ∀ v ∈ l, SVal.le (.q 0) v) :
    SVal.le (.q 0) (listSum l) := by
  induction l with
  | nil => simp [listSum, SVal.le]
  | cons x xs ih =>
    exact sval_add_nonneg (h x (by simp)) (ih fun v hv => h v (by simp [hv]))

theorem divNat_nonneg {v : SVal} {n : Nat} (h : SVal.le (.q 0) v) :
    SVal.le (.q 0) (v.divNat n) := by
  rcases v with _ | v <;> simp_all [SVal.divNat, SVal.le]
  positivity

theorem headAdd_ge1 {l : List SVal} {k : ℚ} (hk : (1 : ℚ) ≤ k)
    (h : ∀ v ∈ l, SVal.le (.q 0) v) : SVal.le (.q 1) (headAdd l k) := by
  cases l with
  | nil => simpa [headAdd, SVal.le] using hk
  | cons x xs => exact ge1_add (h x (by simp)) hk

theorem meanAdd_ge1 {l : List SVal} {k : ℚ} (hk : (1 : ℚ) ≤ k)
    (h : ∀ v ∈ l, SVal.le (.q 0) v) : SVal.le (.q 1) (meanAdd l k) := by
  cases l with
  | nil => simpa [meanAdd, SVal.le] using hk
  | cons x xs =>
    exact ge1_add (divNat_nonneg (listSum_nonneg h)) hk

theorem gateControllability_ge1 (t : GateType) {c0s c1s : List SVal}
    (h0 : ∀ v ∈ c0s, SVal.le (.q 1) v) (h1 : ∀ v ∈ c1s, SVal.le (.q 1) v) :
    SVal.le (.q 1) (gateControllability t c0s c1s).1 ∧
    SVal.le (.q 1) (gateControllability t c0s c1s).2 := by
  have h0' : ∀ v ∈ c0s, SVal.le (.q 0) v :=
    fun v hv => sle_weaken (by norm_num) (h0 v hv)
  have h1' : ∀ v ∈ c1s, SVal.le (.q 0) v :=
    fun v hv => sle_weaken (by norm_num) (h1 v hv)
  have hm0 : SVal.le (.q 0) (listMin c0s) := listMin_ge h0'
  have hm1 : SVal.le (.q 0) (listMin c1s) := listMin_ge h1'
  have hs0 : SVal.le (.q 0) (listSum c0s) := listSum_nonneg h0'
  have hs1 : SVal.le (.q 0) (listSum c1s) := listSum_nonneg h1'
  have hx : SVal.le (.q 0) (SVal.minv (listSum c0s) (listSum c1s)) :=
    sle_minv hs0 hs1
  cases t <;>
    refine ⟨?_, ?_⟩ <;>
    simp only [gateControllability] <;>
    first
      | exact ge1_add hm0 (by norm_num)
      | exact ge1_add hm1 (by norm_num)
      | exact ge1_add hs0 (by norm_num)
      | exact ge1_add hs1 (by norm_num)
      | exact ge1_add hx (by norm_num)
      | exact headAdd_ge1 (by norm_num) h0'
      | exact headAdd_ge1 (by norm_num) h1'
      | exact meanAdd_ge1 (by norm_num) h0'
      | exact meanAdd_ge1 (by norm_num) h1'

/-! ### Monotonicity and invariance of the controllability pass -/

theorem updOutC_mono (nets : List String) (cand0 cand1 : SVal)
    (acc : CState × Bool) (out : String) (n : String) :
    SVal.le ((updOutC nets cand0 cand1 acc out).1.c0 n) (acc.1.c0 n) ∧
    SVal.le ((updOutC nets cand0 cand1 acc out).1.c1 n) (acc.1.c1 n) := by
  by_cases h : out ∈ nets <;> simp only [updOutC, h, if_true, if_false]
  · constructor <;> by_cases hn : n = out <;> simp [hn, minv_le_left, sle_rfl]
  · exact ⟨sle_rfl _, sle_rfl _⟩

theorem foldOutC_mono (nets : List String) (cand0 cand1 : SVal) :
    ∀ (outs : List String) (acc : CState × Bool) (n : String),
    SVal.le ((outs.foldl (updOutC nets cand0 cand1) acc).1.c0 n) (acc.1.c0 n) ∧
    SVal.le ((outs.foldl (updOutC nets cand0 cand1) acc).1.c1 n) (acc.1.c1 n) := by
  intro outs
  induction outs with
  | nil => intro acc n; exact ⟨sle_rfl _, sle_rfl _⟩
  | cons o rest ih =>
    intro acc n
    have h1 := ih (updOutC nets cand0 cand1 acc o) n
    have h2 := updOutC_mono nets cand0 cand1 acc o n
    exact ⟨sle_trans h1.1 h2.1, sle_trans h1.2 h2.2⟩

theorem updateGateC_mono (nets : List String) (g : Gate) (s : CState) (n : String) :
    SVal.le ((updateGateC nets g s).1.c0 n) (s.c0 n) ∧
    SVal.le ((updateGateC nets g s).1.c1 n) (s.c1 n) := by
  unfold updateGateC
  cases hins : g.inputs.filter (fun i => decide (i ∈ nets)) with
  | nil => exact ⟨sle_rfl _, sle_rfl _⟩
  | cons i0 irest => exact foldOutC_mono nets _ _ g.outputs (s, false) n

theorem passC_mono (nets : List String) :
    ∀ (gates : List Gate) (acc : CState × Bool) (n : String),
    SVal.le ((gates.foldl (fun acc g =>
        let r := updateGateC nets g acc.1
        (r.1, acc.2 || r.2)) acc).1.c0 n) (acc.1.c0 n) ∧
    SVal.le ((gates.foldl (fun acc g =>
        let r := updateGateC nets g acc.1
        (r.1, acc.2 || r.2)) acc).1.c1 n) (acc.1.c1 n) := by
  intro gates
  induction gates with
  | nil => intro acc n; exact ⟨sle_rfl _, sle_rfl _⟩
  | cons g rest ih =>
    intro acc n
    have h1 := ih ((updateGateC nets g acc.1).1, acc.2 || (updateGateC nets g acc.1).2) n
    have h2 := updateGateC_mono nets g acc.1 n
    exact ⟨sle_trans h1.1 h2.1, sle_trans h1.2 h2.2⟩

theorem runC_mono (nets : List String) (gates : List Gate) :
    ∀ (fuel : Nat) (s : CState) (n : String),
    SVal.le ((runC nets gates fuel s).1.c0 n) (s.c0 n) ∧
    SVal.le ((runC nets gates fuel s).1.c1 n) (s.c1 n) := by
  intro fuel
  induction fuel with
  | zero => intro s n; exact ⟨sle_rfl _, sle_rfl _⟩
  | succ f ih =>
    intro s n
    have hp := passC_mono nets gates (s, false) n
    simp only [runC]
    by_cases hch : (passC nets gates s).2
    · simp only [hch, if_true]
      have hr := ih (passC nets gates s).1 n
      exact ⟨sle_trans hr.1 hp.1, sle_trans hr.2 hp.2⟩
    · simp only [hch, if_false, Bool.false_eq_true]
      exact hp

theorem updOutC_inv (nets : List String) {cand0 cand1 : SVal}
    (acc : CState × Bool) (out : String) (hinv : CInv acc.1)
    (h0 : SVal.le (.q 1) cand0) (h1 : SVal.le (.q 1) cand1) :
    CInv (updOutC nets cand0 cand1 acc out).1 := by
  by_cases h : out ∈ nets <;> simp only [updOutC, h, if_true, if_false]
  · intro n
    constructor <;> by_cases hn : n = out <;> simp only [hn, if_true, if_false]
    · exact sle_minv (hinv out).1 h0
    · simpa [hn] using (hinv n).1
    · exact sle_minv (hinv out).2 h1
    · simpa [hn] using (hinv n).2
  · exact hinv

theorem foldOutC_inv (nets : List String) {cand0 cand1 : SVal}
    (h0 : SVal.le (.q 1) cand0) (h1 : SVal.le (.q 1) cand1) :
    ∀ (outs : List String) (acc : CState × Bool), CInv acc.1 →
    CInv ((outs.foldl (updOutC nets cand0 cand1) acc).1) := by
  intro outs
  induction outs with
  | nil => intro acc h; exact h
  | cons o rest ih =>
    intro acc hacc
    exact ih _ (updOutC_inv nets acc o hacc h0 h1)

theorem updateGateC_inv (nets : List String) (g : Gate) (s : CState)
    (hinv : CInv s) : CInv (updateGateC nets g s).1 := by
  unfold updateGateC
  cases hins : g.inputs.filter (fun i => decide (i ∈ nets)) with
  | nil => exact hinv
  | cons i0 irest =>
    have h0 : ∀ v ∈ (i0 :: irest).map s.c0, SVal.le (.q 1) v := by
      intro v hv
      obtain ⟨i, _, rfl⟩ := List.mem_map.mp hv
      exact (hinv i).1
    have h1 : ∀ v ∈ (i0 :: irest).map s.c1, SVal.le (.q 1) v := by
      intro v hv
      obtain ⟨i, _, rfl⟩ := List.mem_map.mp hv
      exact (hinv i).2
    have hc := gateControllability_ge1 g.gateType h0 h1
    exact foldOutC_inv nets hc.1 hc.2 g.outputs (s, false) hinv

theorem passC_inv (nets : List String) :
    ∀ (gates : List Gate) (acc : CState × Bool), CInv acc.1 →
    CInv ((gates.foldl (fun acc g =>
        let r := updateGateC nets g acc.1
        (r.1, acc.2 || r.2)) acc).1) := by
  intro gates
  induction gates with
  | nil => intro acc h; exact h
  | cons g rest ih =>
    intro acc hacc
    exact ih _ (updateGateC_inv nets g acc.1 hacc)

theorem runC_inv (nets : List String) (gates : List Gate) :
    ∀ (fuel : Nat) (s : CState), CInv s → CInv (runC nets gates fuel s).1 := by
  intro fuel
  induction fuel with
  | zero => intro s h; exact h
  | succ f ih =>
    intro s hs
    simp only [runC]
    by_cases hch : (passC nets gates s).2
    · simp only [hch, if_true]
      exact ih _ (passC_inv nets gates (s, false) hs)
    · simp only [hch, if_false, Bool.false_eq_true]
      exact passC_inv nets gates (s, false) hs

theorem initC_inv (nets pis : List String) : CInv (initC nets pis) := by
  intro n
  constructor <;> simp only [initC] <;> split <;> simp [SVal.le, sle_top]

theorem runC_count_le (nets : List String) (gates : List Gate) :
    ∀ (fuel : Nat) (s : CState), (runC nets gates fuel s).2 ≤ fuel := by
  intro fuel
  induction fuel with
  | zero => intro s; exact Nat.le_refl 0
  | succ f ih =>
    intro s
    simp only [runC]
    by_cases hch : (passC nets gates s).2
    · simp only [hch, if_true]
      exact Nat.succ_le_succ (ih _)
    · simp only [hch, if_false, Bool.false_eq_true]
      omega

/-! ### Monotonicity and invariance of the observability pass -/

theorem updInO_mono (nets : List String) (newObs : SVal) (acc : OState × Bool)
    (inp : String) (n : String) :
    SVal.le ((updInO nets newObs acc inp).1 n) (acc.1 n) := by
  by_cases h : inp ∈ nets <;> simp only [updInO, h, if_true, if_false]
  · by_cases hn : n = inp <;> simp [hn, minv_le_left, sle_rfl]
  · exact sle_rfl _

theorem foldInO_mono (nets : List String) (newObs : SVal) :
    ∀ (ins : List String) (acc : OState × Bool) (n : String),
    SVal.le ((ins.foldl (updInO nets newObs) acc).1 n) (acc.1 n) := by
  intro ins
  induction ins with
  | nil => intro acc n; exact sle_rfl _
  | cons i rest ih =>
    intro acc n
    exact sle_trans (ih (updInO nets newObs acc i) n) (updInO_mono nets newObs acc i n)

theorem updateGateO_mono (nets : List String) (g : Gate) (s : OState) (n : String) :
    SVal.le ((updateGateO nets g s).1 n) (s n) := by
  unfold updateGateO
  cases houts : g.outputs.filter (fun o => decide (o ∈ nets)) with
  | nil => exact sle_rfl _
  | cons o0 orest => exact foldInO_mono nets _ g.inputs (s, false) n

theorem passO_mono (nets : List String) :
    ∀ (gates : List Gate) (acc : OState × Bool) (n : String),
    SVal.le ((gates.foldl (fun acc g =>
        let r := updateGateO nets g acc.1
        (r.1, acc.2 || r.2)) acc).1 n) (acc.1 n) := by
  intro gates
  induction gates with
  | nil => intro acc n; exact sle_rfl _
  | cons g rest ih =>
    intro acc n
    exact sle_trans
      (ih ((updateGateO nets g acc.1).1, acc.2 || (updateGateO nets g acc.1).2) n)
      (updateGateO_mono nets g acc.1 n)

theorem runO_mono (nets : List String) (gates : List Gate) :
    ∀ (fuel : Nat) (s : OState) (n : String),
    SVal.le ((runO nets gates fuel s).1 n) (s n) := by
  intro fuel
  induction fuel with
  | zero => intro s n; exact sle_rfl _
  | succ f ih =>
    intro s n
    have hp := passO_mono nets gates (s, false) n
    simp only [runO]
    by_cases hch : (passO nets gates s).2
    · simp only [hch, if_true]
      exact sle_trans (ih (passO nets gates s).1 n) hp
    · simp only [hch, if_false, Bool.false_eq_true]
      exact hp

theorem obs_cand_nonneg {m : SVal} (hm : SVal.le (.q 0) m) (len : Nat) :
    SVal.le (.q 0) (m.add (.q len)) := by
  rcases m with _ | m <;> simp_all [SVal.add, SVal.le]
  positivity

theorem updInO_inv (nets : List String) {newObs : SVal} (acc : OState × Bool)
    (inp : String) (hinv : ONonneg acc.1) (hc : SVal.le (.q 0) newObs) :
    ONonneg (updInO nets newObs acc inp).1 := by
  by_cases h : inp ∈ nets <;> simp only [updInO, h, if_true, if_false]
  · intro n
    by_cases hn : n = inp <;> simp only [hn, if_true, if_false]
    · exact sle_minv (hinv inp) hc
    · simpa [hn] using hinv n
  · exact hinv

theorem foldInO_inv (nets : List String) {newObs : SVal}
    (hc : SVal.le (.q 0) newObs) :
    ∀ (ins : List String) (acc : OState × Bool), ONonneg acc.1 →
    ONonneg ((ins.foldl (updInO nets newObs) acc).1) := by
  intro ins
  induction ins with
  | nil => intro acc h; exact h
  | cons i rest ih =>
    intro acc hacc
    exact ih _ (updInO_inv nets acc i hacc hc)

theorem updateGateO_inv (nets : List String) (g : Gate) (s : OState)
    (hinv : ONonneg s) : ONonneg (updateGateO nets g s).1 := by
  unfold updateGateO
  cases houts : g.outputs.filter (fun o => decide (o ∈ nets)) with
  | nil => exact hinv
  | cons o0 orest =>
    have hm : SVal.le (.q 0) (listMin ((o0 :: orest).map s)) := by
      refine listMin_ge ?_
      intro v hv
      obtain ⟨o, _, rfl⟩ := List.mem_map.mp hv
      exact hinv o
    exact foldInO_inv nets (obs_cand_nonneg hm g.inputs.length) g.inputs
      (s, false) hinv

theorem passO_inv (nets : List String) :
    ∀ (gates : List Gate) (acc : OState × Bool), ONonneg acc.1 →
    ONonneg ((gates.foldl (fun acc g =>
        let r := updateGateO nets g acc.1
        (r.1, acc.2 || r.2)) acc).1) := by
  intro gates
  induction gates with
  | nil => intro acc h; exact h
  | cons g rest ih =>
    intro acc hacc
    exact ih _ (updateGateO_inv nets g acc.1 hacc)

theorem runO_inv (nets : List String) (gates : List Gate) :
    ∀ (fuel : Nat) (s : OState), ONonneg s → ONonneg (runO nets gates fuel s).1 := by
  intro fuel
  induction fuel with
  | zero => intro s h; exact h
  | succ f ih =>
    intro s hs
    simp only [runO]
    by_cases hch : (passO nets gates s).2
    · simp only [hch, if_true]
      exact ih _ (passO_inv nets gates (s, false) hs)
    · simp only [hch, if_false, Bool.false_eq_true]
      exact passO_inv nets gates (s, false) hs

theorem initO_inv (nets pos : List String) : ONonneg (initO nets pos) := by
  intro n
  simp only [initO]
  split <;> simp [SVal.le, sle_top]

/-! ### Claim theorems -/

/-- C2: weaving returns the original text split as prefix ++ suffix with the
fragment (plus its separating newline) inserted at the split point, which
sits immediately before the first occurrence of `endmodule`; with no
occurrence, the fragment is appended at end-of-text after a newline.  In
both cases every byte of the original text outside the inserted region is
preserved. -/
theorem c2_weave_splits_at_first_endmodule (content frag : Text) :
    (∃ pre suf, content = pre ++ suf ∧
        insertIntoNetlist content frag = pre ++ frag ++ lit "\n" ++ suf ∧
        lit "endmodule" <+: suf ∧
        ∀ j < pre.length, ¬ lit "endmodule" <+: content.drop j) ∨
    (insertIntoNetlist content frag = content ++ lit "\n" ++ frag ∧
        ∀ j, ¬ lit "endmodule" <+: content.drop j) := by
  cases h : findIdx (lit "endmodule") content with
  | none =>
    refine Or.inr ⟨?_, findIdx_none_spec _ _ h⟩
    simp only [insertIntoNetlist, h]
  | some i =>
    obtain ⟨hlen, hpre, hmin⟩ := findIdx_some_spec _ _ _ h
    refine Or.inl ⟨content.take i, content.drop i,
      (List.take_append_drop i content).symm, ?_, hpre, ?_⟩
    · simp only [insertIntoNetlist, h]
    · intro j hj
      refine hmin j ?_
      have : j < min i content.length := by simpa [List.length_take] using hj
      omega

/-- C5: for an AND gate the candidate output controllability-0 is the
minimum of the input controllability-0 values plus 1 and the candidate
output controllability-1 is the sum of the input controllability-1 values
plus 1; in particular inputs with controllability-1 values 2 and 3 give
output controllability-1 = 6 and controllability-0 = min(2,3)+1 = 3. -/
theorem c5_and_controllability_formula :
    (∀ c0s c1s : List SVal, gateControllability .AND c0s c1s =
        ((listMin c0s).add (.q 1), (listSum c1s).add (.q 1))) ∧
    (∀ a b a1 b1 : ℚ, gateControllability .AND [.q a, .q b] [.q a1, .q b1] =
        (.q (min a b + 1), .q (a1 + b1 + 1))) ∧
    gateControllability .AND [.q 2, .q 3] [.q 2, .q 3] = (.q 3, .q 6) := by
  refine ⟨fun _ _ => rfl, fun a b a1 b1 => ?_, ?_⟩
  · simp [gateControllability, listMin, listSum, SVal.minv, SVal.add, qmin_eq_min]
  · norm_num [gateControllability, listMin, listSum, SVal.minv, SVal.add, qmin]

/-- C8 counterexample: the cell-type string `ANDXNOR` contains `XNOR` but is
classified `AND`, not `XNOR`, because the `AND` rule is tested first; this
refutes the claim that every name containing `XNOR` is classified `XNOR`. -/
theorem c8_counterexample_andxnor :
    classifyGateType (lit "ANDXNOR") = GateType.AND ∧
    hasSub (lit "XNOR") (upperText (lit "ANDXNOR")) = true ∧
    GateType.AND ≠ GateType.XNOR :=
  ⟨by decide, by decide, by decide⟩

/-- C8 amended: a name containing `NAND` is classified NAND and never AND;
a name containing `XNOR` is never classified XOR, NOR or OR, and is
classified XNOR provided it does not also contain `AND` (the AND/NAND rules
fire first otherwise); a name containing `NOR` but not `XNOR` is never
classified OR, and is classified NOR provided it does not also contain
`AND`; a name containing none of the rule substrings is UNKNOWN.
Containment is tested on the upper-cased cell string, as in the source. -/
theorem c8_classification_amended (s : Text) :
    (hasSub (lit "NAND") (upperText s) = true → classifyGateType s = .NAND) ∧
    (hasSub (lit "XNOR") (upperText s) = true →
      classifyGateType s ≠ .XOR ∧ classifyGateType s ≠ .NOR ∧
      classifyGateType s ≠ .OR ∧
      (hasSub (lit "AND") (upperText s) = false → classifyGateType s = .XNOR)) ∧
    (hasSub (lit "NOR") (upperText s) = true →
      hasSub (lit "XNOR") (upperText s) = false →
      classifyGateType s ≠ .OR ∧
      (hasSub (lit "AND") (upperText s) = false → classifyGateType s = .NOR)) ∧
    (hasSub (lit "AND") (upperText s) = false →
      hasSub (lit "OR") (upperText s) = false →
      hasSub (lit "NOT") (upperText s) = false →
      hasSub (lit "INV") (upperText s) = false →
      hasSub (lit "BUF") (upperText s) = false →
      hasSub (lit "DFF") (upperText s) = false →
      hasSub (lit "MUX") (upperText s) = false →
      classifyGateType s = .UNKNOWN) := by
  have handn : hasSub (lit "NAND") (upperText s) = true →
      hasSub (lit "AND") (upperText s) = true :=
    hasSub_mono (by decide)
  have hxn : hasSub (lit "XNOR") (upperText s) = true →
      hasSub (lit "NOR") (upperText s) = true :=
    hasSub_mono (by decide)
  have hno : hasSub (lit "NOR") (upperText s) = true →
      hasSub (lit "OR") (upperText s) = true :=
    hasSub_mono (by decide)
  have hxo : hasSub (lit "XOR") (upperText s) = true →
      hasSub (lit "OR") (upperText s) = true :=
    hasSub_mono (by decide)
  have hdffr : hasSub (lit "DFFR") (upperText s) = true →
      hasSub (lit "DFF") (upperText s) = true :=
    hasSub_mono (by decide)
  have hdffs : hasSub (lit "DFFS") (upperText s) = true →
      hasSub (lit "DFF") (upperText s) = true :=
    hasSub_mono (by decide)
  refine ⟨?_, ?_, ?_, ?_⟩
  · intro h
    simp [classifyGateType, h]
  · intro h
    have hnor := hxn h
    have hor := hno hnor
    cases hA : hasSub (lit "AND") (upperText s) with
    | true =>
      cases hNA : hasSub (lit "NAND") (upperText s) with
      | true => simp [classifyGateType, h, hnor, hor, hA, hNA]
      | false => simp [classifyGateType, h, hnor, hor, hA, hNA]
    | false =>
      have hNA : hasSub (lit "NAND") (upperText s) = false := by
        cases hNA : hasSub (lit "NAND") (upperText s) with
        | true => rw [handn hNA] at hA; cases hA
        | false => rfl
      simp [classifyGateType, h, hnor, hor, hA, hNA]
  · intro h hx
    have hor := hno h
    cases hA : hasSub (lit "AND") (upperText s) with
    | true =>
      cases hNA : hasSub (lit "NAND") (upperText s) with
      | true => simp [classifyGateType, h, hx, hor, hA, hNA]
      | false => simp [classifyGateType, h, hx, hor, hA, hNA]
    | false =>
      have hNA : hasSub (lit "NAND") (upperText s) = false := by
        cases hNA : hasSub (lit "NAND") (upperText s) with
        | true => rw [handn hNA] at hA; cases hA
        | false => rfl
      simp [classifyGateType, h, hx, hor, hA, hNA]
  · intro hA hOR hNOT hINV hBUF hDFF hMUX
    have hNA : hasSub (lit "NAND") (upperText s) = false := by
      cases hNA : hasSub (lit "NAND") (upperText s) with
      | true => rw [handn hNA] at hA; cases hA
      | false => rfl
    have hNOR : hasSub (lit "NOR") (upperText s) = false := by
      cases hv : hasSub (lit "NOR") (upperText s) with
      | true => rw [hno hv] at hOR; cases hOR
      | false => rfl
    have hXOR : hasSub (lit "XOR") (upperText s) = false := by
      cases hv : hasSub (lit "XOR") (upperText s) with
      | true => rw [hxo hv] at hOR; cases hOR
      | false => rfl
    have hXNOR : hasSub (lit "XNOR") (upperText s) = false := by
      cases hv : hasSub (lit "XNOR") (upperText s) with
      | true => rw [hxn hv] at hNOR; cases hNOR
      | false => rfl
    have hDFFR : hasSub (lit "DFFR") (upperText s) = false := by
      cases hv : hasSub (lit "DFFR") (upperText s) with
      | true => rw [hdffr hv] at hDFF; cases hDFF
      | false => rfl
    have hDFFS : hasSub (lit "DFFS") (upperText s) = false := by
      cases hv : hasSub (lit "DFFS") (upperText s) with
      | true => rw [hdffs hv] at hDFF; cases hDFF
      | false => rfl
    simp [classifyGateType, hA, hOR, hNOT, hINV, hBUF, hDFF, hMUX, hNA, hNOR,
      hXOR, hXNOR, hDFFR, hDFFS]

/-- C8 amended, witnessed at concrete cell names: `xnor2_x1` contains `XNOR`
(upper-cased) and no `AND`, and is classified XNOR. -/
theorem c8_classification_amended_witness :
    hasSub (lit "XNOR") (upperText (lit "xnor2_x1")) = true ∧
    hasSub (lit "AND") (upperText (lit "xnor2_x1")) = false ∧
    classifyGateType (lit "xnor2_x1") = GateType.XNOR :=
  ⟨by decide, by decide,
    ((c8_classification_amended (lit "xnor2_x1")).2.1 (by decide)).2.2.2 (by decide)⟩

set_option maxRecDepth 400000 in
/-- C1 counterexample: `insert_trojan` called directly with zero trigger-net
candidates and a combinational trigger does not fail and does produce an
output: the woven netlist is returned (`isSome`) and contains the malformed
empty-conjunction trigger `assign trojan_trigger_1 = ;`.  There is no
"insufficient sites" condition anywhere in `insert_trojan`. -/
theorem c1_counterexample_zero_candidates :
    ((insertTrojanStep ⟨lit "module m();\nendmodule\n", 0⟩
        ⟨[], "combinational", "leakage", "T"⟩).2).isSome = true ∧
    hasSub (lit "assign trojan_trigger_1 = ;")
      (((insertTrojanStep ⟨lit "module m();\nendmodule\n", 0⟩
        ⟨[], "combinational", "leakage", "T"⟩).2).getD []) = true :=
  ⟨by decide, by decide⟩

/-- C1 amended: the zero-candidate guard lives in the multi-insertion driver
`insert_multiple_trojans`, which skips every requested Trojan when no target
nets are available ("Not enough target nets") and produces no outputs while
leaving the stored netlist untouched; `insert_trojan` itself performs no
such check, and with a combinational trigger and zero candidates it
succeeds, emitting an empty conjunction (and it raises `IndexError` for the
sequential and counter triggers). -/
theorem c1_amended_zero_candidate_handling :
    (∀ (orig : Text) (choices : List (String × String × String)),
      (insertMultipleTrojans orig [] choices).2 = [] ∧
      (insertMultipleTrojans orig [] choices).1.content = orig) ∧
    (∀ (s : IState) (p ts : String),
      ((insertTrojanStep s ⟨[], "combinational", p, ts⟩).2).isSome = true) ∧
    (∀ (s : IState) (p ts : String),
      (insertTrojanStep s ⟨[], "sequential", p, ts⟩).2 = none ∧
      (insertTrojanStep s ⟨[], "counter", p, ts⟩).2 = none) := by
  have hnets : ∀ i, trojanNetsFor [] i = [] := by
    intro i; simp [trojanNetsFor]
  have hloop : ∀ (choices : List (String × String × String)) (s : IState) (i : Nat),
      multiLoop s [] i choices = (s, []) := by
    intro choices
    induction choices with
    | nil => intro s i; rfl
    | cons c rest ih =>
      intro s i
      obtain ⟨tt, pt, ts⟩ := c
      simp [multiLoop, hnets, ih]
  refine ⟨fun orig choices => ?_, fun s p ts => ?_, fun s p ts => ?_⟩
  · simp [insertMultipleTrojans, hloop]
  · simp [insertTrojanStep, generateTrojanLogic]
  · constructor <;> simp [insertTrojanStep, generateTrojanLogic]

/-- C10: over any sequence of `insert_trojan` calls the stored netlist text
is never mutated — the final inserter state still holds the pristine
original — and the k-th call's output is exactly the fragment for
sequential identifier k (counted from the inserter's creation) woven once
into the pristine original text, independent of all other calls. -/
theorem c10_inserter_original_never_mutated (orig : Text) (k : Nat)
    (calls : List TrojanCall) :
    (runCalls ⟨orig, k⟩ calls).1.content = orig ∧
    (runCalls ⟨orig, k⟩ calls).1.counter = k + calls.length ∧
    (runCalls ⟨orig, k⟩ calls).2 = expectedOutputs orig k calls := by
  have main : ∀ (cs : List TrojanCall) (k' : Nat),
      runCalls ⟨orig, k'⟩ cs = (⟨orig, k' + cs.length⟩, expectedOutputs orig k' cs) := by
    intro cs
    induction cs with
    | nil => intro k'; simp [runCalls, expectedOutputs]
    | cons c rest ih =>
      intro k'
      have hstep : insertTrojanStep ⟨orig, k'⟩ c =
          (⟨orig, k' + 1⟩,
            (generateTrojanLogic (k' + 1) (c.targetNets.take 3) c.targetNets.head?
              c.triggerType c.payloadType c.timestamp).map
              (fun f => insertIntoNetlist orig f.data)) := by
        cases hg : generateTrojanLogic (k' + 1) (c.targetNets.take 3) c.targetNets.head?
            c.triggerType c.payloadType c.timestamp with
        | none => simp [insertTrojanStep, hg]
        | some f => simp [insertTrojanStep, hg]
      have harith : k' + 1 + rest.length = k' + (rest.length + 1) := by omega
      simp [runCalls, hstep, ih (k' + 1), expectedOutputs, harith]
  rw [main calls k]
  exact ⟨rfl, rfl, rfl⟩

/-- C6: after the full analysis every primary input net present in the net
table has controllability-0 = controllability-1 = 1, for every graph; and no
single gate-update step can lower any net — in particular a primary input —
below the baseline 1, since updates take minima against candidates that are
themselves at least baseline + 1. -/
theorem c6_primary_input_baseline_preserved :
    (∀ (nets pis : List String) (gates : List Gate) (p : String),
       p ∈ pis → p ∈ nets →
       (computeControllability nets pis gates).1.c0 p = .q 1 ∧
       (computeControllability nets pis gates).1.c1 p = .q 1) ∧
    (∀ (nets : List String) (g : Gate) (s : CState),
       CInv s → CInv (updateGateC nets g s).1) := by
  constructor
  · intro nets pis gates p hp1 hp2
    have hinit0 : (initC nets pis).c0 p = .q 1 := by simp [initC, hp1, hp2]
    have hinit1 : (initC nets pis).c1 p = .q 1 := by simp [initC, hp1, hp2]
    have hup := runC_mono nets gates 10 (initC nets pis) p
    have hlow := runC_inv nets gates 10 _ (initC_inv nets pis) p
    rw [hinit0, hinit1] at hup
    exact ⟨sle_antisymm hlow.1 hup.1 |>.symm, sle_antisymm hlow.2 hup.2 |>.symm⟩
  · intro nets g s hs
    exact updateGateC_inv nets g s hs

set_option maxRecDepth 40000 in
/-- C6 witness: on a concrete graph whose single AND gate even drives the
primary input net `a` itself, the final controllability of `a` is still
exactly the baseline 1. -/
theorem c6_primary_input_baseline_preserved_witness :
    ("a" ∈ (["a"] : List String)) ∧ ("a" ∈ (["a", "y"] : List String)) ∧
    (computeControllability ["a", "y"] ["a"]
        [⟨"g", .AND, "AND2", ["a", "a"], ["a", "y"]⟩]).1.c0 "a" = .q 1 ∧
    (computeControllability ["a", "y"] ["a"]
        [⟨"g", .AND, "AND2", ["a", "a"], ["a", "y"]⟩]).1.c1 "a" = .q 1 :=
  ⟨by decide, by decide,
    (c6_primary_input_baseline_preserved.1 ["a", "y"] ["a"]
      [⟨"g", .AND, "AND2", ["a", "a"], ["a", "y"]⟩] "a" (by decide) (by decide)).1,
    (c6_primary_input_baseline_preserved.1 ["a", "y"] ["a"]
      [⟨"g", .AND, "AND2", ["a", "a"], ["a", "y"]⟩] "a" (by decide) (by decide)).2⟩

/-- C7: after the backward pass every primary output net present in the net
table has observability exactly 0; and no propagation step ever raises any
net's observability (updates only take running minima), so in particular a
primary output can never be raised above 0. -/
theorem c7_primary_output_observability_zero :
    (∀ (nets pos : List String) (gates : List Gate) (po : String),
       po ∈ pos → po ∈ nets →
       (computeObservability nets pos gates).1 po = .q 0) ∧
    (∀ (nets : List String) (g : Gate) (s : OState) (n : String),
       SVal.le ((updateGateO nets g s).1 n) (s n)) := by
  constructor
  · intro nets pos gates po hp1 hp2
    have hinit : (initO nets pos) po = .q 0 := by simp [initO, hp1, hp2]
    have hup := runO_mono nets gates 10 (initO nets pos) po
    have hlow := runO_inv nets gates 10 _ (initO_inv nets pos) po
    rw [hinit] at hup
    exact (sle_antisymm hlow hup).symm
  · intro nets g s n
    exact updateGateO_mono nets g s n

set_option maxRecDepth 40000 in
/-- C7 witness: on a concrete two-gate graph the primary output keeps
observability 0. -/
theorem c7_primary_output_observability_zero_witness :
    ("y" ∈ (["y"] : List String)) ∧ ("y" ∈ (["a", "w", "y"] : List String)) ∧
    (computeObservability ["a", "w", "y"] ["y"]
        [⟨"g1", .AND, "AND2", ["a", "y"], ["w"]⟩,
         ⟨"g2", .BUF, "BUF1", ["w"], ["y"]⟩]).1 "y" = .q 0 :=
  ⟨by decide, by decide,
    c7_primary_output_observability_zero.1 ["a", "w", "y"] ["y"]
      [⟨"g1", .AND, "AND2", ["a", "y"], ["w"]⟩,
       ⟨"g2", .BUF, "BUF1", ["w"], ["y"]⟩] "y" (by decide) (by decide)⟩

attribute [local semireducible] Rat.mul Rat.add Rat.sub Rat.inv in
set_option maxRecDepth 400000 in
/-- C3 counterexample: in a netlist with one AND gate whose inputs are the
primary input `a` and the never-driven wire `b`, the output `y` is reachable
from `a` in the netlist graph (a two-edge walk through the gate node), yet
after the full controllability pass its controllability-1 still carries the
infinite sentinel: the sum rule propagates the undriven input's infinity.
This refutes the claim that every net reachable from a primary input ends
with finite values. -/
theorem c3_counterexample_dangling_side_input :
    (computeControllability ["a", "b", "y"] ["a"]
        [⟨"g1", .AND, "AND2", ["a", "b"], ["y"]⟩]).1.c1 "y" = .inf ∧
    EWalk (buildEdges ["a", "b", "y"] [⟨"g1", .AND, "AND2", ["a", "b"], ["y"]⟩])
      2 "a" "y" := by
  refine ⟨by decide, ?_⟩
  refine EWalk.step (show ("a", "g1") ∈
      buildEdges ["a", "b", "y"] [⟨"g1", .AND, "AND2", ["a", "b"], ["y"]⟩]
    by decide) ?_
  exact EWalk.step (show ("g1", "y") ∈
      buildEdges ["a", "b", "y"] [⟨"g1", .AND, "AND2", ["a", "b"], ["y"]⟩]
    by decide) (EWalk.refl _)

/-- C3 amended: the controllability pass always terminates within the fixed
cap of 10 full iterations, and every primary input net retains finite
(non-sentinel) values; but a net merely reachable from a primary input may
retain the infinite sentinel (for example when a gate on the path has an
undriven side input, as the counterexample shows). -/
theorem c3_cap_and_finiteness_amended :
    (∀ (nets pis : List String) (gates : List Gate),
       (computeControllability nets pis gates).2 ≤ 10) ∧
    (∀ (nets pis : List String) (gates : List Gate) (p : String),
       p ∈ pis → p ∈ nets →
       (computeControllability nets pis gates).1.c0 p ≠ .inf ∧
       (computeControllability nets pis gates).1.c1 p ≠ .inf) := by
  constructor
  · intro nets pis gates
    exact runC_count_le nets gates 10 (initC nets pis)
  · intro nets pis gates p hp1 hp2
    have hinit0 : (initC nets pis).c0 p = .q 1 := by simp [initC, hp1, hp2]
    have hinit1 : (initC nets pis).c1 p = .q 1 := by simp [initC, hp1, hp2]
    have hup := runC_mono nets gates 10 (initC nets pis) p
    rw [hinit0, hinit1] at hup
    exact ⟨sle_not_inf hup.1, sle_not_inf hup.2⟩

attribute [local semireducible] Rat.mul Rat.add Rat.sub Rat.inv in
set_option maxRecDepth 400000 in
/-- C3 amended witness: on the counterexample graph the pass runs 2 of the
10 allowed iterations and the primary input `a` keeps finite values. -/
theorem c3_cap_and_finiteness_amended_witness :
    (computeControllability ["a", "b", "y"] ["a"]
        [⟨"g1", .AND, "AND2", ["a", "b"], ["y"]⟩]).2 ≤ 10 ∧
    ("a" ∈ (["a"] : List String)) ∧ ("a" ∈ (["a", "b", "y"] : List String)) ∧
    (computeControllability ["a", "b", "y"] ["a"]
        [⟨"g1", .AND, "AND2", ["a", "b"], ["y"]⟩]).1.c0 "a" ≠ .inf ∧
    (computeControllability ["a", "b", "y"] ["a"]
        [⟨"g1", .AND, "AND2", ["a", "b"], ["y"]⟩]).1.c1 "a" ≠ .inf :=
  ⟨c3_cap_and_finiteness_amended.1 ["a", "b", "y"] ["a"]
     [⟨"g1", .AND, "AND2", ["a", "b"], ["y"]⟩],
   by decide, by decide,
   (c3_cap_and_finiteness_amended.2 ["a", "b", "y"] ["a"]
     [⟨"g1", .AND, "AND2", ["a", "b"], ["y"]⟩] "a" (by decide) (by decide)).1,
   (c3_cap_and_finiteness_amended.2 ["a", "b", "y"] ["a"]
     [⟨"g1", .AND, "AND2", ["a", "b"], ["y"]⟩] "a" (by decide) (by decide)).2⟩

/-! ### Graph lemmas: breadth-first search, walks and the bipartite shape -/

theorem mem_succsOf {edges : List (String × String)} {x y : String} :
    y ∈ succsOf edges x ↔ (x, y) ∈ edges := by
  simp only [succsOf, List.mem_map, List.mem_filter]
  constructor
  · rintro ⟨e, ⟨he, hx⟩, rfl⟩
    have : e.1 = x := by simpa using hx
    rw [← this]
    exact he
  · intro h
    exact ⟨(x, y), ⟨h, by simp⟩, rfl⟩

theorem mem_expandF {edges : List (String × String)} {s : List String} {y : String} :
    y ∈ expandF edges s ↔ y ∈ s ∨ ∃ x ∈ s, (x, y) ∈ edges := by
  simp only [expandF, List.mem_append, List.mem_flatMap]
  constructor
  · rintro (h | ⟨x, hx, hy⟩)
    · exact Or.inl h
    · exact Or.inr ⟨x, hx, mem_succsOf.mp hy⟩
  · rintro (h | ⟨x, hx, hy⟩)
    · exact Or.inl h
    · exact Or.inr ⟨x, hx, mem_succsOf.mpr hy⟩

theorem ewalk_zero_eq {edges : List (String × String)} {x z : String}
    (h : EWalk edges 0 x z) : x = z := by
  cases h
  rfl

theorem ewalk_succ_iff {edges : List (String × String)} {n : Nat} {x z : String} :
    EWalk edges (n + 1) x z ↔ ∃ y, (x, y) ∈ edges ∧ EWalk edges n y z := by
  constructor
  · intro h
    cases h with
    | step he hw => exact ⟨_, he, hw⟩
  · rintro ⟨y, he, hw⟩
    exact EWalk.step he hw

theorem ewalk_snoc {edges : List (String × String)} :
    ∀ {n : Nat} {a b c : String}, EWalk edges n a b → (b, c) ∈ edges →
      EWalk edges (n + 1) a c := by
  intro n a b c h
  induction h with
  | refl x => intro he; exact EWalk.step he (EWalk.refl _)
  | step he hw ih => intro hbc; exact EWalk.step he (ih hbc)

theorem ewalk_snoc_inv {edges : List (String × String)} :
    ∀ (n : Nat) (a c : String), EWalk edges (n + 1) a c →
      ∃ b, EWalk edges n a b ∧ (b, c) ∈ edges := by
  intro n
  induction n with
  | zero =>
    intro a c h
    obtain ⟨y, he, hw⟩ := ewalk_succ_iff.mp h
    rw [ewalk_zero_eq hw] at he
    exact ⟨a, EWalk.refl _, he⟩
  | succ m ih =>
    intro a c h
    obtain ⟨y, he, hw⟩ := ewalk_succ_iff.mp h
    obtain ⟨b, hb, hbc⟩ := ih y c hw
    exact ⟨b, EWalk.step he hb, hbc⟩

theorem mem_frontier_iff (edges : List (String × String)) (src : String) :
    ∀ (k : Nat) (y : String),
      y ∈ frontier edges src k ↔ ∃ l ≤ k, EWalk edges l src y := by
  intro k
  induction k with
  | zero =>
    intro y
    simp only [frontier, List.mem_singleton]
    constructor
    · rintro rfl
      exact ⟨0, Nat.le_refl 0, EWalk.refl _⟩
    · rintro ⟨l, hl, hw⟩
      interval_cases l
      exact (ewalk_zero_eq hw).symm
  | succ k ih =>
    intro y
    simp only [frontier, mem_expandF]
    constructor
    · rintro (h | ⟨x, hx, he⟩)
      · obtain ⟨l, hl, hw⟩ := (ih y).mp h
        exact ⟨l, by omega, hw⟩
      · obtain ⟨l, hl, hw⟩ := (ih x).mp hx
        exact ⟨l + 1, by omega, ewalk_snoc hw he⟩
    · rintro ⟨l, hl, hw⟩
      by_cases hlk : l ≤ k
      · exact Or.inl ((ih y).mpr ⟨l, hlk, hw⟩)
      · have hl1 : l = k + 1 := by omega
        subst hl1
        obtain ⟨b, hb, hbc⟩ := ewalk_snoc_inv k src y hw
        exact Or.inr ⟨b, (ih b).mpr ⟨k, Nat.le_refl k, hb⟩, hbc⟩

theorem splGo_frontier_spec (edges : List (String × String)) (src dst : String) :
    ∀ (f k d : Nat), splGo edges dst f (frontier edges src k) k = some d →
      k ≤ d ∧ dst ∈ frontier edges src d ∧
      ∀ j, k ≤ j → j < d → dst ∉ frontier edges src j := by
  intro f
  induction f with
  | zero =>
    intro k d h
    simp only [splGo] at h
    split at h
    · cases h
      exact ⟨Nat.le_refl _, by assumption, fun j h1 h2 => absurd h1 (by omega)⟩
    · cases h
  | succ f ih =>
    intro k d h
    simp only [splGo] at h
    split at h
    · cases h
      exact ⟨Nat.le_refl _, by assumption, fun j h1 h2 => absurd h1 (by omega)⟩
    · rename_i hnot
      have h' : splGo edges dst f (frontier edges src (k + 1)) (k + 1) = some d := h
      obtain ⟨h1, h2, h3⟩ := ih (k + 1) d h'
      refine ⟨by omega, h2, ?_⟩
      intro j hj1 hj2
      by_cases hjk : j = k
      · subst hjk
        exact hnot
      · exact h3 j (by omega) hj2

theorem spl_some_least_walk {edges : List (String × String)} {fuel : Nat}
    {src dst : String} {d : Nat} (h : spl edges fuel src dst = some d) :
    EWalk edges d src dst ∧ ∀ j < d, ¬ EWalk edges j src dst := by
  have h0 : splGo edges dst fuel (frontier edges src 0) 0 = some d := h
  obtain ⟨-, hmem, hmin⟩ := splGo_frontier_spec edges src dst fuel 0 d h0
  obtain ⟨l, hl, hw⟩ := (mem_frontier_iff edges src d dst).mp hmem
  have hexact : l = d := by
    by_contra hne
    have hld : l < d := by omega
    exact hmin l (Nat.zero_le l) hld ((mem_frontier_iff edges src l dst).mpr
      ⟨l, Nat.le_refl l, hw⟩)
  subst hexact
  refine ⟨hw, ?_⟩
  intro j hj hwj
  exact hmin j (Nat.zero_le j) hj ((mem_frontier_iff edges src j dst).mpr
    ⟨j, Nat.le_refl j, hwj⟩)

theorem spl_none_of_unreachable {edges : List (String × String)}
    {src dst : String} (hun : ∀ l, ¬ EWalk edges l src dst) :
    ∀ (fuel : Nat), spl edges fuel src dst = none := by
  have hnot : ∀ k, dst ∉ frontier edges src k := by
    intro k hk
    obtain ⟨l, -, hw⟩ := (mem_frontier_iff edges src k dst).mp hk
    exact hun l hw
  have aux : ∀ (f k : Nat), splGo edges dst f (frontier edges src k) k = none := by
    intro f
    induction f with
    | zero => intro k; simp [splGo, hnot k]
    | succ f ih =>
      intro k
      simp only [splGo, hnot k, if_false]
      exact ih (k + 1)
  intro fuel
  exact aux fuel 0

theorem mem_addOnce {α : Type} [DecidableEq α] {l : List α} {x e : α} :
    e ∈ addOnce l x ↔ e ∈ l ∨ e = x := by
  by_cases h : x ∈ l <;> simp [addOnce, h]
  rintro rfl
  exact h

theorem mem_foldl_guard {α β : Type} [DecidableEq β] (P : α → Prop)
    [DecidablePred P] (f : α → β) :
    ∀ (l : List α) (acc : List β) (e : β),
      e ∈ l.foldl (fun a i => if P i then addOnce a (f i) else a) acc ↔
        e ∈ acc ∨ ∃ i ∈ l, P i ∧ e = f i := by
  intro l
  induction l with
  | nil => intro acc e; simp
  | cons i rest ih =>
    intro acc e
    simp only [List.foldl_cons, List.mem_cons]
    rw [ih]
    by_cases hp : P i
    · simp only [hp, if_true, mem_addOnce]
      constructor
      · rintro ((h | rfl) | ⟨j, hj, hpj, rfl⟩)
        · exact Or.inl h
        · exact Or.inr ⟨i, Or.inl rfl, hp, rfl⟩
        · exact Or.inr ⟨j, Or.inr hj, hpj, rfl⟩
      · rintro (h | ⟨j, (rfl | hj), hpj, rfl⟩)
        · exact Or.inl (Or.inl h)
        · exact Or.inl (Or.inr rfl)
        · exact Or.inr ⟨j, hj, hpj, rfl⟩
    · simp only [hp, if_false]
      constructor
      · rintro (h | ⟨j, hj, hpj, rfl⟩)
        · exact Or.inl h
        · exact Or.inr ⟨j, Or.inr hj, hpj, rfl⟩
      · rintro (h | ⟨j, (rfl | hj), hpj, rfl⟩)
        · exact Or.inl h
        · exact absurd hpj hp
        · exact Or.inr ⟨j, hj, hpj, rfl⟩

theorem mem_addGateEdges {nets : List String} {g : Gate}
    {acc : List (String × String)} {e : String × String} :
    e ∈ addGateEdges nets acc g ↔ e ∈ acc ∨
      (∃ i ∈ g.inputs, i ∈ nets ∧ e = (i, g.name)) ∨
      (∃ o ∈ g.outputs, o ∈ nets ∧ e = (g.name, o)) := by
  unfold addGateEdges
  rw [mem_foldl_guard (fun o => o ∈ nets) (fun o => (g.name, o)),
      mem_foldl_guard (fun i => i ∈ nets) (fun i => (i, g.name))]
  exact or_assoc

theorem mem_buildEdges {nets : List String} {gates : List Gate}
    {e : String × String} :
    e ∈ buildEdges nets gates ↔ ∃ g ∈ gates,
      (∃ i ∈ g.inputs, i ∈ nets ∧ e = (i, g.name)) ∨
      (∃ o ∈ g.outputs, o ∈ nets ∧ e = (g.name, o)) := by
  have aux : ∀ (gs : List Gate) (acc : List (String × String)),
      e ∈ gs.foldl (addGateEdges nets) acc ↔ e ∈ acc ∨ ∃ g ∈ gs,
        (∃ i ∈ g.inputs, i ∈ nets ∧ e = (i, g.name)) ∨
        (∃ o ∈ g.outputs, o ∈ nets ∧ e = (g.name, o)) := by
    intro gs
    induction gs with
    | nil => intro acc; simp
    | cons g rest ih =>
      intro acc
      simp only [List.foldl_cons, List.mem_cons]
      rw [ih, mem_addGateEdges]
      constructor
      · rintro ((h | h) | ⟨g', hg', hh⟩)
        · exact Or.inl h
        · exact Or.inr ⟨g, Or.inl rfl, h⟩
        · exact Or.inr ⟨g', Or.inr hg', hh⟩
      · rintro (h | ⟨g', (rfl | hg'), hh⟩)
        · exact Or.inl (Or.inl h)
        · exact Or.inl (Or.inr hh)
        · exact Or.inr ⟨g', hg', hh⟩
  rw [buildEdges, aux]
  simp

theorem netwalk_zero_eq {nets : List String} {gates : List Gate} {x z : String}
    (h : NetWalk nets gates 0 x z) : x = z := by
  cases h
  rfl

theorem netwalk_to_ewalk {nets : List String} {gates : List Gate} :
    ∀ {k : Nat} {x z : String}, NetWalk nets gates k x z →
      EWalk (buildEdges nets gates) (2 * k) x z := by
  intro k x z h
  induction h with
  | refl x => exact EWalk.refl x
  | step g hg hx hxn hy hyn hw ih =>
    rename_i x' y' z' n'
    have he1 : (x', g.name) ∈ buildEdges nets gates :=
      mem_buildEdges.mpr ⟨g, hg, Or.inl ⟨x', hx, hxn, rfl⟩⟩
    have he2 : (g.name, y') ∈ buildEdges nets gates :=
      mem_buildEdges.mpr ⟨g, hg, Or.inr ⟨y', hy, hyn, rfl⟩⟩
    have : EWalk (buildEdges nets gates) (2 * n' + 1 + 1) x' z' :=
      EWalk.step he1 (EWalk.step he2 ih)
    have harith : 2 * (n' + 1) = 2 * n' + 1 + 1 := by omega
    rw [harith]
    exact this

theorem ewalk_to_netwalk {nets : List String} {gates : List Gate}
    (hdisj : ∀ g ∈ gates, g.name ∉ nets)
    (hnodup : (gates.map Gate.name).Nodup) :
    ∀ {d : Nat} {x z : String}, EWalk (buildEdges nets gates) d x z → z ∈ nets →
      (x ∈ nets → ∃ k, d = 2 * k ∧ NetWalk nets gates k x z) ∧
      (∀ g ∈ gates, x = g.name →
        ∃ k, d = 2 * k + 1 ∧
          ∃ w ∈ g.outputs, w ∈ nets ∧ NetWalk nets gates k w z) := by
  intro d x z h
  induction h with
  | refl x =>
    intro hz
    constructor
    · intro _
      exact ⟨0, rfl, NetWalk.refl x⟩
    · intro g hg hx
      subst hx
      exact absurd hz (hdisj g hg)
  | step he hw ih =>
    rename_i x' y' z' n'
    intro hz
    obtain ⟨ih1, ih2⟩ := ih hz
    constructor
    · intro hx
      rcases mem_buildEdges.mp he with ⟨g, hg, hcase⟩
      rcases hcase with ⟨i, hi, hin, heq⟩ | ⟨o, ho, hon, heq⟩
      · injection heq with hx1 hy1
        subst hx1
        obtain ⟨k, hk, w, hwout, hwnets, hwwalk⟩ := ih2 g hg hy1
        refine ⟨k + 1, by omega, ?_⟩
        exact NetWalk.step g hg hi hin hwout hwnets hwwalk
      · injection heq with hx1 hy1
        subst hx1
        exact absurd hx (hdisj g hg)
    · intro g' hg' hx
      rcases mem_buildEdges.mp he with ⟨g, hg, hcase⟩
      rcases hcase with ⟨i, hi, hin, heq⟩ | ⟨o, ho, hon, heq⟩
      · injection heq with hx1 hy1
        subst hx
        rw [← hx1] at hin
        exact absurd hin (hdisj g' hg')
      · injection heq with hx1 hy1
        have hgg : g = g' := by
          have hinj := List.inj_on_of_nodup_map hnodup
          exact hinj hg hg' (by rw [← hx1, hx])
        subst hgg
        rw [← hy1] at hon ho
        obtain ⟨k, hk, hwwalk⟩ := ih1 hon
        exact ⟨k, by omega, y', ho, hon, hwwalk⟩

/-- C4 counterexample: for a net `y` driven by a single buffer from the
primary input `a`, the computed logic depth is 2 — the number of edges of
the path a → gate → y in the bipartite net/gate graph — while the gate-hop
distance (number of gates traversed) is 1; the claim predicts depth 1. -/
theorem c4_counterexample_depth_is_bipartite_length :
    logicDepth ["a", "y"] ["a"] [⟨"g", .BUF, "BUF1", ["a"], ["y"]⟩] "y" false = 2 ∧
    NetWalk ["a", "y"] [⟨"g", .BUF, "BUF1", ["a"], ["y"]⟩] 1 "a" "y" ∧
    ¬ NetWalk ["a", "y"] [⟨"g", .BUF, "BUF1", ["a"], ["y"]⟩] 0 "a" "y" := by
  refine ⟨by decide, ?_, ?_⟩
  · exact NetWalk.step ⟨"g", .BUF, "BUF1", ["a"], ["y"]⟩ (by decide) (by decide)
      (by decide) (by decide) (by decide) (NetWalk.refl "y")
  · intro h
    have := netwalk_zero_eq h
    simp at this

/-- C4 amended: the computed logic depth of a non-input net is the minimum
over primary inputs of the shortest-path edge count in the bipartite
net/gate graph, which counts two edges per gate traversed: whenever the
shortest-path computation from a primary input `p` (a net, with gate
instance names distinct from net names) returns `d`, then `d = 2k` where `k`
is exactly the minimal gate-hop distance from `p` to the net.  Consequently
the compiled depth of an internal net is always twice a gate count, never
the gate-hop count itself; primary inputs get depth 0 and nets no primary
input reaches default to depth 0. -/
theorem c4_logic_depth_amended (nets pis : List String) (gates : List Gate)
    (hdisj : ∀ g ∈ gates, g.name ∉ nets)
    (hnodup : (gates.map Gate.name).Nodup) (n : String) :
    (logicDepth nets pis gates n true = 0) ∧
    ((∀ p ∈ pis, ∀ l, ¬ EWalk (buildEdges nets gates) l p n) →
       logicDepth nets pis gates n false = 0) ∧
    (∀ (p : String) (d : Nat), p ∈ nets → n ∈ nets →
       spl (buildEdges nets gates) (graphNodes nets gates).length p n = some d →
       ∃ k, d = 2 * k ∧ NetWalk nets gates k p n ∧
         ∀ k', NetWalk nets gates k' p n → k ≤ k') ∧
    ((∀ p ∈ pis, p ∈ nets) → n ∈ nets →
       ∃ m, logicDepth nets pis gates n false = 2 * m) := by
  have key : ∀ (p : String) (d : Nat), p ∈ nets → n ∈ nets →
      spl (buildEdges nets gates) (graphNodes nets gates).length p n = some d →
      ∃ k, d = 2 * k ∧ NetWalk nets gates k p n ∧
        ∀ k', NetWalk nets gates k' p n → k ≤ k' := by
    intro p d hp hn hspl
    obtain ⟨hw, hmin⟩ := spl_some_least_walk hspl
    obtain ⟨k, hk, hnw⟩ := ((ewalk_to_netwalk hdisj hnodup hw hn).1) hp
    refine ⟨k, hk, hnw, ?_⟩
    intro k' hk'
    have hew := netwalk_to_ewalk hk'
    by_contra hcon
    exact hmin (2 * k') (by omega) hew
  refine ⟨rfl, ?_, key, ?_⟩
  · intro hun
    have hfold : ∀ (ps : List String) (acc : Option Nat),
        (∀ p ∈ ps, ∀ l, ¬ EWalk (buildEdges nets gates) l p n) →
        ps.foldl (depthStep (buildEdges nets gates) (graphNodes nets gates) n)
          acc = acc := by
      intro ps
      induction ps with
      | nil => intro acc _; rfl
      | cons p rest ih =>
        intro acc hps
        have hsplnone : spl (buildEdges nets gates)
            (graphNodes nets gates).length p n = none :=
          spl_none_of_unreachable (hps p (by simp)) _
        have hstep : depthStep (buildEdges nets gates) (graphNodes nets gates)
            n acc p = acc := by
          unfold depthStep
          split
          · rw [hsplnone]
          · rfl
        simp only [List.foldl_cons, hstep]
        exact ih acc (fun q hq => hps q (by simp [hq]))
    simp only [logicDepth, if_false, Bool.false_eq_true]
    rw [hfold pis none hun]
    rfl
  · intro hpis hn
    have hfold : ∀ (ps : List String) (acc : Option Nat),
        (∀ p ∈ ps, p ∈ nets) →
        (acc = none ∨ ∃ m, acc = some (2 * m)) →
        (ps.foldl (depthStep (buildEdges nets gates) (graphNodes nets gates) n)
            acc = none ∨
         ∃ m, ps.foldl (depthStep (buildEdges nets gates)
            (graphNodes nets gates) n) acc = some (2 * m)) := by
      intro ps
      induction ps with
      | nil => intro acc _ hacc; exact hacc
      | cons p rest ih =>
        intro acc hps hacc
        simp only [List.foldl_cons]
        refine ih _ (fun q hq => hps q (by simp [hq])) ?_
        unfold depthStep
        split
        · cases hspl : spl (buildEdges nets gates)
              (graphNodes nets gates).length p n with
          | none => exact hacc
          | some d =>
            obtain ⟨k, hk, -, -⟩ := key p d (hps p (by simp)) hn hspl
            rcases hacc with rfl | ⟨m, rfl⟩
            · exact Or.inr ⟨k, by simp [minO, hk]⟩
            · refine Or.inr ⟨min m k, ?_⟩
              simp only [minO, Option.some.injEq]
              omega
        · exact hacc
    simp only [logicDepth, if_false, Bool.false_eq_true]
    rcases hfold pis none hpis (Or.inl rfl) with hnone | ⟨m, hsome⟩
    · rw [hnone]
      exact ⟨0, rfl⟩
    · rw [hsome]
      exact ⟨m, rfl⟩

/-- C4 amended witness: on the buffer example the shortest-path computation
from `a` to `y` returns 2, and 1 is the minimal gate-hop distance. -/
theorem c4_logic_depth_amended_witness :
    (∀ g ∈ [(⟨"g", .BUF, "BUF1", ["a"], ["y"]⟩ : Gate)],
        Gate.name g ∉ (["a", "y"] : List String)) ∧
    spl (buildEdges ["a", "y"] [⟨"g", .BUF, "BUF1", ["a"], ["y"]⟩])
      (graphNodes ["a", "y"] [⟨"g", .BUF, "BUF1", ["a"], ["y"]⟩]).length
      "a" "y" = some 2 ∧
    (∃ k, 2 = 2 * k ∧
      NetWalk ["a", "y"] [⟨"g", .BUF, "BUF1", ["a"], ["y"]⟩] k "a" "y" ∧
      ∀ k', NetWalk ["a", "y"] [⟨"g", .BUF, "BUF1", ["a"], ["y"]⟩] k' "a" "y" →
        k ≤ k') :=
  ⟨by decide, by decide,
    (c4_logic_depth_amended ["a", "y"] ["a"]
      [⟨"g", .BUF, "BUF1", ["a"], ["y"]⟩] (by decide) (by decide) "y").2.2.1
      "a" 2 (by decide) (by decide) (by decide)⟩

/-- C9: feeding the same netlist source text twice through the parser, graph
builder and feature extractor yields identical results in both runs — the
same parse, the same node and edge lists and identical feature records.  The
embedded pipeline is a pure function of the text: the source path has no
randomness, Python dict iteration is insertion-ordered (embedded as ordered
lists), and the primary-input set is only ever used order-insensitively.
The last conjunct records that the graph edge list follows source
declaration order: a gate declared later contributes its edges strictly
after all edges of earlier gates. -/
theorem c9_pipeline_deterministic (t : Text) :
    runPipeline t = runPipeline t ∧
    (runPipeline t).2.2.1 =
      buildEdges ((parseNetlist t).netTable.map (fun ni => ni.name))
        (parseNetlist t).gates ∧
    (∀ (nets : List String) (gs : List Gate) (g : Gate),
       buildEdges nets (gs ++ [g]) = addGateEdges nets (buildEdges nets gs) g) :=
  ⟨rfl, rfl, fun nets gs g => by simp [buildEdges]⟩

end NetVGE
